import Mathlib

/-!
Verification development for the horizon densification tool
(`interpolate_horizon.py`).

The program reads a text file of 3D points keyed by an integer (col,row)
grid index, infers the dominant grid spacing per axis, generates new
grid-aligned candidate points strictly between consecutive existing
neighbours along each axis at a caller-supplied target spacing, estimates
a z value for every candidate by scattered-data interpolation with a
nearest-sample fallback, and writes the union of original and synthesized
points sorted by (col,row).

The embedding below models Python dictionaries as association lists with
insertion order and last-writer-wins update, Python `range(a, b, T)` as
`pyRange`, floats as rationals, and the NaN sentinel of the batched
interpolation call as `Option`.  The scipy `griddata` primary method
(linear/cubic) is an external library call and is kept abstract as a
`primary : ℚ × ℚ → Option ℚ` parameter; the nearest-sample method is
modelled concretely from the spec's description (closest sample by
Euclidean distance in the (x,y) plane).
-/

/-- A parsed data point: `{x, y, z, col, row}` as in `read_horizon_file`. -/
structure Pt where
  x : ℚ
  y : ℚ
  z : ℚ
  col : ℤ
  row : ℤ
deriving DecidableEq

/-! ### Python dictionaries as association lists

Insertion order is kept; updating an existing key rewrites the value in
place, inserting a fresh key appends at the end (CPython dict semantics).
-/

/-- First-match lookup in an association list (keys are kept unique by
`dictInsert`, so first match is the only match). -/
def dictLookup {α β : Type} [DecidableEq α] : List (α × β) → α → Option β
  | [], _ => none
  | e :: t, k => if e.1 = k then some e.2 else dictLookup t k

/-- Python `k in d`. -/
def dictHasKey {α β : Type} [DecidableEq α] (m : List (α × β)) (k : α) : Bool :=
  (dictLookup m k).isSome

/-- Python `d[k] = v`: update in place when the key exists, append otherwise. -/
def dictInsert {α β : Type} [DecidableEq α] (m : List (α × β)) (k : α) (v : β) :
    List (α × β) :=
  if dictHasKey m k then m.map (fun e => if e.1 = k then (k, v) else e)
  else m ++ [(k, v)]

/-- The `if k not in d: d[k] = []` then `d[k].append(v)` idiom used to build
`col_to_rows` / `row_to_cols`. -/
def addToMulti {α γ : Type} [DecidableEq α] (m : List (α × List γ)) (k : α) (v : γ) :
    List (α × List γ) :=
  if dictHasKey m k then m.map (fun e => if e.1 = k then (e.1, e.2 ++ [v]) else e)
  else m ++ [(k, [v])]

/-! ### Reading the input file (`read_horizon_file`)

A text line is a list of characters; `stripWS` is Python `str.strip()`,
`splitTokens` is `str.split()`.  The numeric conversion of the first five
fields (`float`/`int` with `ValueError` handling, lines 58–69 of the
source) is kept abstract as a parameter `pF : List Line → Option Pt`.
-/

/-- One text line. -/
abbrev Line := List Char

/-- Whitespace as recognised by Python `strip`/`split` (the characters that
occur in this data format). -/
def isWS (c : Char) : Bool :=
  c = ' ' || c = '\t' || c = '\n' || c = '\r'

/-- Python `str.strip()`. -/
def stripWS (l : Line) : Line :=
  ((l.dropWhile isWS).reverse.dropWhile isWS).reverse

/-- Does `s` start with the token `t`?  (Python `str.startswith`.) -/
def startsWithL : Line → Line → Bool
  | _, [] => true
  | [], _ :: _ => false
  | c :: cs, d :: ds => c = d && startsWithL cs ds

/-- Python `str.split()` on whitespace runs, with an explicit fuel that is
always sufficient (each step consumes at least one character). -/
def splitTokensAux : Nat → Line → List Line
  | 0, _ => []
  | fuel + 1, l =>
    match l.dropWhile isWS with
    | [] => []
    | c :: rest =>
      (c :: rest.takeWhile (fun d => !isWS d)) ::
        splitTokensAux fuel (rest.dropWhile (fun d => !isWS d))

/-- Python `str.split()`. -/
def splitTokens (l : Line) : List Line :=
  splitTokensAux l.length l

/-- The header terminator token `"# End:"`. -/
def endMarker : Line := ['#', ' ', 'E', 'n', 'd', ':']

/-- The reading loop of `read_horizon_file` (lines 47–69): while in the
header, or on a blank line, or on a line whose stripped form starts with
`'#'`, the raw line is appended to the header (and a stripped form starting
with `"# End:"` ends the header); otherwise the line is split and, when it
has at least five fields, handed to the numeric parser. -/
def readFileAux (pF : List Line → Option Pt) : Bool → List Line → List Line × List Pt
  | _, [] => ([], [])
  | inHeader, l :: ls =>
    let s := stripWS l
    if inHeader || s.isEmpty || startsWithL s ['#'] then
      let inHeader2 := if startsWithL s endMarker then false else inHeader
      let r := readFileAux pF inHeader2 ls
      (l :: r.1, r.2)
    else
      let parts := splitTokens s
      if parts.length ≥ 5 then
        match pF parts with
        | some p =>
          let r := readFileAux pF inHeader ls
          (r.1, p :: r.2)
        | none => readFileAux pF inHeader ls
      else readFileAux pF inHeader ls

/-- `read_horizon_file`: returns `(header_lines, data_points)`. -/
def readHorizonFile (pF : List Line → Option Pt) (lines : List Line) :
    List Line × List Pt :=
  readFileAux pF true lines

/-- Modelled from the spec: the header as the spec's words describe it,
"all lines up to and including the first line beginning with the literal
token `# End:`" (after stripping), used to compare with the header the
code actually produces. -/
def specHeader : List Line → List Line
  | [] => []
  | l :: ls =>
    if startsWithL (stripWS l) endMarker then [l] else l :: specHeader ls

/-- The lines strictly after the first `# End:` marker line (empty when no
marker exists); the complement of `specHeader`. -/
def afterMarker : List Line → List Line
  | [] => []
  | l :: ls =>
    if startsWithL (stripWS l) endMarker then ls else afterMarker ls

/-- A line that the post-header phase of the reading loop still routes to
the header: blank, or starting with `'#'` after stripping. -/
def blankOrComment (l : Line) : Bool :=
  (stripWS l).isEmpty || startsWithL (stripWS l) ['#']

/-- What the reading loop does to a line once the header has ended and the
line is neither blank nor a comment: split it and parse when it has at
least five fields. -/
def dataOfLine (pF : List Line → Option Pt) (l : Line) : Option Pt :=
  if blankOrComment l then none
  else
    let parts := splitTokens (stripWS l)
    if parts.length ≥ 5 then pF parts else none

/-! ### Grid topology (`col_to_rows` / `row_to_cols`, lines 114–131) -/

/-- Insert into a strictly sorted duplicate-free list of integers. -/
def insSorted (x : ℤ) : List ℤ → List ℤ
  | [] => [x]
  | y :: t =>
    if x < y then x :: y :: t
    else if x = y then y :: t
    else y :: insSorted x t

/-- Python `sorted(set(l))`. -/
def dedupSort (l : List ℤ) : List ℤ :=
  l.foldl (fun acc x => insSorted x acc) []

/-- The raw `col_to_rows` dictionary before sorting: rows appended in data
order under their column, columns in first-occurrence order. -/
def colToRowsRaw (pts : List Pt) : List (ℤ × List ℤ) :=
  pts.foldl (fun m p => addToMulti m p.col p.row) []

/-- The raw `row_to_cols` dictionary before sorting. -/
def rowToColsRaw (pts : List Pt) : List (ℤ × List ℤ) :=
  pts.foldl (fun m p => addToMulti m p.row p.col) []

/-- `col_to_rows` after the in-place `sorted(set(...))` pass. -/
def colToRows (pts : List Pt) : List (ℤ × List ℤ) :=
  (colToRowsRaw pts).map (fun e => (e.1, dedupSort e.2))

/-- `row_to_cols` after the in-place `sorted(set(...))` pass. -/
def rowToCols (pts : List Pt) : List (ℤ × List ℤ) :=
  (rowToColsRaw pts).map (fun e => (e.1, dedupSort e.2))

/-- Consecutive pairs `(l[i], l[i+1])`, the `for i in range(len(l)-1)` idiom. -/
def consecPairs {α : Type} (l : List α) : List (α × α) :=
  l.zip l.tail

/-! ### Spacing inference (lines 136–172) -/

/-- Gap collection over at most the first 100 axis keys in insertion order
(lines 137–151): for each sampled key whose entry has more than one value,
all positive differences of consecutive entries. -/
def gapsOf (idx : List (ℤ × List ℤ)) : List ℤ :=
  (idx.take 100).flatMap (fun e =>
    if 1 < e.2.length then
      (consecPairs e.2).filterMap (fun pr =>
        if 0 < pr.2 - pr.1 then some (pr.2 - pr.1) else none)
    else [])

/-- `row_intervals_all`: row gaps within each column. -/
def rowIntervalsAll (pts : List Pt) : List ℤ :=
  gapsOf (colToRows pts)

/-- `col_intervals_all`: column gaps within each row. -/
def colIntervalsAll (pts : List Pt) : List ℤ :=
  gapsOf (rowToCols pts)

/-- The distinct elements of a list in first-occurrence order — the key
order of Python `Counter(l)`. -/
def firstOccsAux {α : Type} [DecidableEq α] (seen : List α) : List α → List α
  | [] => []
  | x :: t =>
    if seen.contains x then firstOccsAux seen t
    else x :: firstOccsAux (x :: seen) t

/-- The distinct elements of a list in first-occurrence order. -/
def firstOccs {α : Type} [DecidableEq α] (l : List α) : List α :=
  firstOccsAux [] l

/-- Lines 153–172: `Counter(l)`, drop the keys `≤ 1`, take the key of
maximal count (Python `max` keeps the first maximum in iteration order,
which is first-occurrence order for a `Counter`); `4` when the gap list is
empty or no gap exceeds 1. -/
def mostCommonGt1 (l : List ℤ) : ℤ :=
  if l.isEmpty then 4
  else
    match (firstOccs l).filter (fun k => 1 < k) with
    | [] => 4
    | k :: ks => ks.foldl (fun best g => if l.count best < l.count g then g else best) k

/-- The inferred row spacing (`row_spacing`). -/
def rowSpacing (pts : List Pt) : ℤ :=
  mostCommonGt1 (rowIntervalsAll pts)

/-- The inferred column spacing (`col_spacing`). -/
def colSpacing (pts : List Pt) : ℤ :=
  mostCommonGt1 (colIntervalsAll pts)

/-! ### Gap generation (lines 180–223) -/

/-- Key of the point store: `(col, row)`. -/
abbrev HKey := ℤ × ℤ

/-- Value of the point store: `(x, y, z)`. -/
abbrev HVal := ℚ × ℚ × ℚ

/-- Python `range(a, b, T)` for positive step, via a structurally
decreasing fuel that is always sufficient. -/
def pyRangeAux (T : ℤ) : Nat → ℤ → ℤ → List ℤ
  | 0, _, _ => []
  | fuel + 1, a, b => if a < b then a :: pyRangeAux T fuel (a + T) b else []

/-- Python `range(a, b, T)` (`T > 0`; the tool is run with a positive
target spacing). -/
def pyRange (a b T : ℤ) : List ℤ :=
  if 0 < T then pyRangeAux T (b - a).toNat a b else []

/-- `col_row_map` (line 109): dict comprehension over the data points,
duplicate keys collapse to the last-seen value. -/
def colRowMap (pts : List Pt) : List (HKey × HVal) :=
  pts.foldl (fun m p => dictInsert m (p.col, p.row) (p.x, p.y, p.z)) []

/-- Store lookup where the source indexes the dict directly (the key is
always present there). -/
def dictGetD {α : Type} [DecidableEq α] (m : List (α × HVal)) (k : α) : HVal :=
  (dictLookup m k).getD (0, 0, 0)

/-- Column pass, one consecutive row pair (lines 195–205): the enumerated
`new_row`s with their `(new_x, new_y)`, skipping keys already present in
`new_points` — which during generation holds exactly the original points. -/
def colPassGap (m : List (HKey × HVal)) (c cur nxt T : ℤ) : List (HKey × (ℚ × ℚ)) :=
  (pyRange (cur + T) nxt T).filterMap (fun nr =>
    if dictHasKey m (c, nr) then none
    else
      let v1 := dictGetD m (c, cur)
      let v2 := dictGetD m (c, nxt)
      let frac : ℚ := ((nr : ℚ) - (cur : ℚ)) / ((nxt : ℚ) - (cur : ℚ))
      some ((c, nr), (v1.1, v1.2.1 + (v2.2.1 - v1.2.1) * frac)))

/-- Column pass (lines 190–205), in source iteration order. -/
def colPass (m : List (HKey × HVal)) (ctr : List (ℤ × List ℤ)) (T : ℤ) :
    List (HKey × (ℚ × ℚ)) :=
  ctr.flatMap (fun e =>
    (consecPairs e.2).flatMap (fun pr => colPassGap m e.1 pr.1 pr.2 T))

/-- Row pass, one consecutive column pair (lines 213–223): x is linearly
interpolated, y is held at `y(current_col, row)`. -/
def rowPassGap (m : List (HKey × HVal)) (r cur nxt T : ℤ) : List (HKey × (ℚ × ℚ)) :=
  (pyRange (cur + T) nxt T).filterMap (fun nc =>
    if dictHasKey m (nc, r) then none
    else
      let v1 := dictGetD m (cur, r)
      let v2 := dictGetD m (nxt, r)
      let frac : ℚ := ((nc : ℚ) - (cur : ℚ)) / ((nxt : ℚ) - (cur : ℚ))
      some ((nc, r), (v1.1 + (v2.1 - v1.1) * frac, v1.2.1)))

/-- Row pass (lines 208–223). -/
def rowPass (m : List (HKey × HVal)) (rtc : List (ℤ × List ℤ)) (T : ℤ) :
    List (HKey × (ℚ × ℚ)) :=
  rtc.flatMap (fun e =>
    (consecPairs e.2).flatMap (fun pr => rowPassGap m e.1 pr.1 pr.2 T))

/-- The emitted candidates in generation order
(`need_interp_indices` zipped with `need_interp_points`): the column pass
runs first, the row pass appends after it; both passes check membership
against the original `new_points`, which still holds only the original
points because interpolated candidates are inserted only at lines 244–245. -/
def needInterp (pts : List Pt) (T : ℤ) : List (HKey × (ℚ × ℚ)) :=
  colPass (colRowMap pts) (colToRows pts) T ++
    rowPass (colRowMap pts) (rowToCols pts) T

/-! ### Value estimation (lines 229–241) -/

/-- `points_xy` zipped with `values_z`, built from the data point list
(duplicates included, as in the source). -/
def samples (pts : List Pt) : List ((ℚ × ℚ) × ℚ) :=
  pts.map (fun p => ((p.x, p.y), p.z))

/-- Squared Euclidean distance in the (x,y) plane. -/
def sqDist (a b : ℚ × ℚ) : ℚ :=
  (a.1 - b.1) ^ 2 + (a.2 - b.2) ^ 2

/-- Modelled from the spec: the nearest-sample method of the external
`griddata` library call — "value of the closest sample by Euclidean
distance in the (x,y) plane"; ties keep the earliest sample. -/
def nearestZ (s : List ((ℚ × ℚ) × ℚ)) (q : ℚ × ℚ) : ℚ :=
  match s with
  | [] => 0
  | e :: t =>
    (t.foldl (fun best e2 => if sqDist e2.1 q < sqDist best.1 q then e2 else best) e).2

/-- Lines 234–241: the batched primary interpolation with NaN modelled as
`none`, followed by the nearest-sample re-estimation of the undefined
positions.  Stated per candidate; the batch calls of the source act
elementwise. -/
def fallbackZ (primary : ℚ × ℚ → Option ℚ) (s : List ((ℚ × ℚ) × ℚ)) (q : ℚ × ℚ) : ℚ :=
  match primary q with
  | some z => z
  | none => nearestZ s q

/-- The `(x, y, z)` triple inserted for a candidate at lines 244–245. -/
def candVal (primary : ℚ × ℚ → Option ℚ) (pts : List Pt) (e : HKey × (ℚ × ℚ)) : HVal :=
  (e.2.1, e.2.2, fallbackZ primary (samples pts) e.2)

/-! ### Merge and output (lines 180–184, 244–245, 259) -/

/-- `new_points` after the insertion loop of lines 244–245: the original
store extended by every candidate in generation order (a later duplicate
key overwrites an earlier one, as Python dict assignment does). -/
def newPoints (primary : ℚ × ℚ → Option ℚ) (pts : List Pt) (T : ℤ) :
    List (HKey × HVal) :=
  (needInterp pts T).foldl (fun m e => dictInsert m e.1 (candVal primary pts e))
    (colRowMap pts)

/-- Lexicographic order on (col,row) used by `sorted(..., key=...)`. -/
def keyLe (a b : HKey) : Bool :=
  a.1 < b.1 || (a.1 = b.1 && a.2 ≤ b.2)

/-- Insertion step of the output sort. -/
def insEntry (e : HKey × HVal) : List (HKey × HVal) → List (HKey × HVal)
  | [] => [e]
  | f :: t => if keyLe e.1 f.1 then e :: f :: t else f :: insEntry e t

/-- `sorted_points` (line 259): the output mapping ordered by ascending
col, then ascending row. -/
def sortEntries (l : List (HKey × HVal)) : List (HKey × HVal) :=
  l.foldr insEntry []

/-- The ordered entries written to the output file. -/
def outputEntries (primary : ℚ × ℚ → Option ℚ) (pts : List Pt) (T : ℤ) :
    List (HKey × HVal) :=
  sortEntries (newPoints primary pts T)

/-- The output file's data lines read back as points — the input a second
run of the tool would receive. -/
def outputPoints (primary : ℚ × ℚ → Option ℚ) (pts : List Pt) (T : ℤ) : List Pt :=
  (outputEntries primary pts T).map (fun e => ⟨e.2.1, e.2.2.1, e.2.2.2, e.1.1, e.1.2⟩)

/-- `interpolate_horizon` (lines 80–290) with the progress and timing
output abstracted away: `none` when zero data points were parsed (the
early return of lines 101–103, before any computation, with no output
file written), otherwise the header and the ordered densified points that
are written to the output path. -/
def interpolateHorizon (pF : List Line → Option Pt) (primary : ℚ × ℚ → Option ℚ)
    (lines : List Line) (T : ℤ) : Option (List Line × List (HKey × HVal)) :=
  let r := readHorizonFile pF lines
  if r.2.length = 0 then none
  else some (r.1, outputEntries primary r.2 T)

/-! ### Concrete inputs used by counterexamples and witnesses -/

/-- A primary estimator that is undefined everywhere; every candidate then
takes the nearest-sample fallback.  (Candidate generation does not depend
on the estimator, so counterexamples about generation hold for any.) -/
def primNone : ℚ × ℚ → Option ℚ := fun _ => none

/-- Four points: column 0 holds rows 0 and 8, and row 4 holds columns −4
and 4.  With spacing 4 the column pass emits key (0,4) (x held at 10) and
the row pass emits key (0,4) again (x interpolated to 0). -/
def exDup : List Pt :=
  [⟨10, 0, 1, 0, 0⟩, ⟨10, 8, 2, 0, 8⟩, ⟨-4, 4, 3, -4, 4⟩, ⟨4, 4, 5, 4, 4⟩]

/-- A single column (col 5) with rows 0, 4, 12: the inferred row spacing
is 4 (most frequent gap) yet the gap 4→12 still receives a new row at
spacing 4. -/
def exMono : List Pt :=
  [⟨0, 0, 1, 5, 0⟩, ⟨0, 4, 1, 5, 4⟩, ⟨0, 12, 1, 5, 12⟩]

/-- Corners of a 4×6 box: the first run's row pass creates the new column
2 with rows 0 and 6 only, which the second run's column pass then fills. -/
def exBox : List Pt :=
  [⟨0, 0, 1, 0, 0⟩, ⟨4, 0, 1, 4, 0⟩, ⟨0, 6, 1, 0, 6⟩, ⟨4, 6, 1, 4, 6⟩]

/-- A single column with all row gaps equal to 4. -/
def exEven : List Pt :=
  [⟨0, 0, 1, 5, 0⟩, ⟨0, 4, 1, 5, 4⟩, ⟨0, 8, 1, 5, 8⟩]

/-- A numeric parser for examples: never accepts a line. -/
def pFNone : List Line → Option Pt := fun _ => none

/-- Example input lines: a marker line, then a comment line, then a data
line.  The code sends the comment line to the header even though it lies
after the marker. -/
def exLines : List Line :=
  [['#', ' ', 'E', 'n', 'd', ':'], ['#', ' ', 'n', 'o', 't', 'e'],
    ['1', ' ', '2', ' ', '3', ' ', '4', ' ', '5']]

/-! ## Lemmas about the dictionary model -/

theorem dictLookup_some_mem {α β : Type} [DecidableEq α] {m : List (α × β)} {k : α}
    {v : β} (h : dictLookup m k = some v) : (k, v) ∈ m := by
  induction m with
  | nil => simp [dictLookup] at h
  | cons e t ih =>
    obtain ⟨a, b⟩ := e
    by_cases hk : a = k
    · subst hk
      simp [dictLookup] at h
      subst h
      exact List.mem_cons_self _ _
    · simp [dictLookup, hk] at h
      exact List.mem_cons_of_mem _ (ih h)

theorem dictHasKey_iff_mem {α β : Type} [DecidableEq α] {m : List (α × β)} {k : α} :
    dictHasKey m k = true ↔ k ∈ m.map Prod.fst := by
  induction m with
  | nil => simp [dictHasKey, dictLookup]
  | cons e t ih =>
    obtain ⟨a, b⟩ := e
    by_cases hk : a = k
    · subst hk
      simp [dictHasKey, dictLookup]
    · simp only [dictHasKey, dictLookup] at ih ⊢
      simp [hk, ih, Ne.symm hk]

theorem dictLookup_mem_of_nodup {α β : Type} [DecidableEq α] {m : List (α × β)}
    {k : α} {v : β} (hn : (m.map Prod.fst).Nodup) (h : (k, v) ∈ m) :
    dictLookup m k = some v := by
  induction m with
  | nil => simp at h
  | cons e t ih =>
    obtain ⟨a, b⟩ := e
    simp only [List.map_cons, List.nodup_cons] at hn
    rcases List.mem_cons.mp h with h | h
    · rw [← h]
      simp [dictLookup]
    · have hne : a ≠ k := by
        rintro rfl
        exact hn.1 (List.mem_map.mpr ⟨(a, v), h, rfl⟩)
      simp [dictLookup, hne]
      exact ih hn.2 h

/-- Lookup in the in-place-rewrite branch of `dictInsert`, at the rewritten key. -/
theorem dictLookup_replace_self {α β : Type} [DecidableEq α] {m : List (α × β)}
    {k : α} (v : β) (hk : dictHasKey m k = true) :
    dictLookup (m.map (fun e => if e.1 = k then (k, v) else e)) k = some v := by
  induction m with
  | nil => simp [dictHasKey, dictLookup] at hk
  | cons e t ih =>
    obtain ⟨a, b⟩ := e
    rw [dictHasKey] at hk
    simp only [dictLookup] at hk
    by_cases ha : a = k
    · subst ha
      simp [dictLookup]
    · rw [if_neg ha] at hk
      simp [dictLookup, ha]
      exact ih hk

/-- Lookup in the in-place-rewrite branch of `dictInsert`, at another key. -/
theorem dictLookup_replace_ne {α β : Type} [DecidableEq α] (m : List (α × β))
    (k k' : α) (v : β) (h : k' ≠ k) :
    dictLookup (m.map (fun e => if e.1 = k then (k, v) else e)) k' =
      dictLookup m k' := by
  induction m with
  | nil => simp [dictLookup]
  | cons e t ih =>
    obtain ⟨a, b⟩ := e
    by_cases ha : a = k
    · subst ha
      simp only [List.map_cons, if_pos rfl]
      simp only [dictLookup]
      simp [Ne.symm h, ih]
    · simp only [List.map_cons, if_neg ha]
      simp only [dictLookup]
      by_cases ha' : a = k'
      · simp [ha']
      · simp [ha', ih]

/-- Lookup in the append branch of `dictInsert`, at the appended key. -/
theorem dictLookup_append_self {α β : Type} [DecidableEq α] {m : List (α × β)}
    {k : α} (v : β) (hnone : dictLookup m k = none) :
    dictLookup (m ++ [(k, v)]) k = some v := by
  induction m with
  | nil => simp [dictLookup]
  | cons e t ih =>
    obtain ⟨a, b⟩ := e
    simp only [dictLookup] at hnone
    by_cases ha : a = k
    · rw [if_pos ha] at hnone
      exact absurd hnone (by simp)
    · rw [if_neg ha] at hnone
      simp only [List.cons_append]
      simp only [dictLookup]
      rw [if_neg ha]
      exact ih hnone

/-- Lookup in the append branch of `dictInsert`, at another key. -/
theorem dictLookup_append_ne {α β : Type} [DecidableEq α] (m : List (α × β))
    (k k' : α) (v : β) (h : k' ≠ k) :
    dictLookup (m ++ [(k, v)]) k' = dictLookup m k' := by
  induction m with
  | nil => simp [dictLookup, Ne.symm h]
  | cons e t ih =>
    obtain ⟨a, b⟩ := e
    simp only [List.cons_append]
    simp only [dictLookup]
    by_cases ha : a = k'
    · simp [ha]
    · simp only [if_neg ha]
      exact ih

theorem dictLookup_insert_self {α β : Type} [DecidableEq α] (m : List (α × β))
    (k : α) (v : β) : dictLookup (dictInsert m k v) k = some v := by
  unfold dictInsert
  by_cases h : dictHasKey m k = true
  · simp only [h, if_true]
    exact dictLookup_replace_self v h
  · simp only [h, Bool.false_eq_true, if_false]
    apply dictLookup_append_self
    cases hl : dictLookup m k
    · rfl
    · rw [dictHasKey, hl] at h
      simp at h

theorem dictLookup_insert_ne {α β : Type} [DecidableEq α] (m : List (α × β))
    (k k' : α) (v : β) (h : k' ≠ k) :
    dictLookup (dictInsert m k v) k' = dictLookup m k' := by
  unfold dictInsert
  by_cases hk : dictHasKey m k = true
  · simp only [hk, if_true]
    exact dictLookup_replace_ne m k k' v h
  · simp only [hk, Bool.false_eq_true, if_false]
    exact dictLookup_append_ne m k k' v h

theorem dictHasKey_insert {α β : Type} [DecidableEq α] (m : List (α × β))
    (k k' : α) (v : β) :
    dictHasKey (dictInsert m k v) k' = true ↔ dictHasKey m k' = true ∨ k' = k := by
  by_cases h : k' = k
  · subst h
    simp [dictHasKey, dictLookup_insert_self]
  · rw [dictHasKey, dictLookup_insert_ne m k k' v h, ← dictHasKey]
    simp [h]

theorem map_fst_dictInsert {α β : Type} [DecidableEq α] (m : List (α × β))
    (k : α) (v : β) :
    (dictInsert m k v).map Prod.fst =
      if dictHasKey m k then m.map Prod.fst else m.map Prod.fst ++ [k] := by
  unfold dictInsert
  by_cases h : dictHasKey m k = true
  · simp only [h, if_true, List.map_map]
    refine List.map_congr_left ?_
    intro e _
    by_cases he : e.1 = k <;> simp [he]
  · simp [h]

theorem length_dictInsert {α β : Type} [DecidableEq α] (m : List (α × β))
    (k : α) (v : β) :
    (dictInsert m k v).length = if dictHasKey m k then m.length else m.length + 1 := by
  unfold dictInsert
  by_cases h : dictHasKey m k = true <;> simp [h]

theorem nodup_fst_dictInsert {α β : Type} [DecidableEq α] {m : List (α × β)}
    (k : α) (v : β) (hn : (m.map Prod.fst).Nodup) :
    ((dictInsert m k v).map Prod.fst).Nodup := by
  rw [map_fst_dictInsert]
  by_cases h : dictHasKey m k = true
  · simpa [h]
  · simp only [h, Bool.false_eq_true, if_false]
    refine List.Nodup.append hn (List.nodup_singleton k) ?_
    intro x hx hk
    simp only [List.mem_singleton] at hk
    subst hk
    exact h (dictHasKey_iff_mem.mpr hx)

/-! ## Lemmas about inserting a candidate list into the store
(the loop of lines 244–245) -/

theorem contains_true_iff {α : Type} [DecidableEq α] {s : List α} {x : α} :
    s.contains x = true ↔ x ∈ s := List.elem_iff

theorem contains_false_iff {α : Type} [DecidableEq α] {s : List α} {x : α} :
    s.contains x = false ↔ ¬ x ∈ s := by
  constructor
  · intro h hx
    rw [contains_true_iff.mpr hx] at h
    simp at h
  · intro h
    by_cases hc : s.contains x = true
    · exact absurd (contains_true_iff.mp hc) h
    · simpa using hc

theorem foldl_insert_lookup {α β γ : Type} [DecidableEq α] (f : α × γ → β)
    (l : List (α × γ)) (m : List (α × β)) (k : α) :
    dictLookup (l.foldl (fun m e => dictInsert m e.1 (f e)) m) k =
      match l.reverse.find? (fun e => decide (e.1 = k)) with
      | some e => some (f e)
      | none => dictLookup m k := by
  induction l generalizing m with
  | nil => simp
  | cons e t ih =>
    simp only [List.foldl_cons, List.reverse_cons]
    rw [ih]
    rw [List.find?_append]
    cases hf : t.reverse.find? (fun e => decide (e.1 = k)) with
    | some e' => simp [hf]
    | none =>
      simp only [hf, Option.none_or]
      by_cases he : e.1 = k
      · have hs : List.find? (fun e => decide (e.1 = k)) [e] = some e := by
          simp [List.find?_singleton, he]
        rw [hs]
        rw [← he, dictLookup_insert_self]
      · have hs : List.find? (fun e => decide (e.1 = k)) [e] = none := by
          simp [List.find?_singleton, he]
        rw [hs]
        exact dictLookup_insert_ne m e.1 k (f e) (Ne.symm he)

theorem foldl_insert_lookup_frozen {α β γ : Type} [DecidableEq α] (f : α × γ → β)
    (l : List (α × γ)) (m : List (α × β)) (k : α) (h : ∀ e ∈ l, e.1 ≠ k) :
    dictLookup (l.foldl (fun m e => dictInsert m e.1 (f e)) m) k = dictLookup m k := by
  rw [foldl_insert_lookup]
  have hnone : l.reverse.find? (fun e => decide (e.1 = k)) = none := by
    rw [List.find?_eq_none]
    intro e he
    simp [h e (List.mem_reverse.mp he)]
  simp [hnone]

theorem foldl_insert_hasKey {α β γ : Type} [DecidableEq α] (f : α × γ → β)
    (l : List (α × γ)) (m : List (α × β)) (k : α) :
    dictHasKey (l.foldl (fun m e => dictInsert m e.1 (f e)) m) k = true ↔
      dictHasKey m k = true ∨ k ∈ l.map Prod.fst := by
  induction l generalizing m with
  | nil => simp
  | cons e t ih =>
    simp only [List.foldl_cons, List.map_cons, List.mem_cons]
    rw [ih]
    have := dictHasKey_insert m e.1 k (f e)
    tauto

theorem nodup_foldl_insert {α β γ : Type} [DecidableEq α] (f : α × γ → β)
    (l : List (α × γ)) (m : List (α × β)) (hn : (m.map Prod.fst).Nodup) :
    ((l.foldl (fun m e => dictInsert m e.1 (f e)) m).map Prod.fst).Nodup := by
  induction l generalizing m with
  | nil => simpa
  | cons e t ih =>
    simp only [List.foldl_cons]
    exact ih _ (nodup_fst_dictInsert e.1 (f e) hn)

/-! ## Lemmas about `firstOccs` -/

theorem mem_firstOccsAux {α : Type} [DecidableEq α] {seen : List α} {l : List α}
    {x : α} : x ∈ firstOccsAux seen l ↔ x ∈ l ∧ ¬ x ∈ seen := by
  induction l generalizing seen with
  | nil => simp [firstOccsAux]
  | cons a t ih =>
    by_cases ha : a ∈ seen
    · have hc : seen.contains a = true := contains_true_iff.mpr ha
      simp only [firstOccsAux, hc, if_true]
      rw [ih]
      constructor
      · rintro ⟨hx, hs⟩
        exact ⟨List.mem_cons_of_mem _ hx, hs⟩
      · rintro ⟨hx, hs⟩
        rcases List.mem_cons.mp hx with rfl | hx
        · exact absurd ha hs
        · exact ⟨hx, hs⟩
    · have hc : seen.contains a = false := contains_false_iff.mpr ha
      simp only [firstOccsAux, hc, Bool.false_eq_true, if_false, List.mem_cons]
      rw [ih]
      constructor
      · rintro (rfl | ⟨hx, hs⟩)
        · exact ⟨Or.inl rfl, ha⟩
        · simp only [List.mem_cons] at hs
          push_neg at hs
          exact ⟨Or.inr hx, hs.2⟩
      · rintro ⟨rfl | hx, hs⟩
        · exact Or.inl rfl
        · by_cases hxa : x = a
          · exact Or.inl hxa
          · refine Or.inr ⟨hx, ?_⟩
            simp only [List.mem_cons]
            push_neg
            exact ⟨hxa, hs⟩

theorem mem_firstOccs {α : Type} [DecidableEq α] {l : List α} {x : α} :
    x ∈ firstOccs l ↔ x ∈ l := by
  rw [firstOccs, mem_firstOccsAux]
  simp

theorem firstOccsAux_congr {α : Type} [DecidableEq α] {s₁ s₂ : List α} (l : List α)
    (h : ∀ x ∈ l, (x ∈ s₁ ↔ x ∈ s₂)) : firstOccsAux s₁ l = firstOccsAux s₂ l := by
  induction l generalizing s₁ s₂ with
  | nil => rfl
  | cons a t ih =>
    have hiff := h a (List.mem_cons_self a t)
    have ha : (s₁.contains a) = (s₂.contains a) := by
      by_cases h1 : a ∈ s₁
      · rw [contains_true_iff.mpr h1, contains_true_iff.mpr (hiff.mp h1)]
      · rw [contains_false_iff.mpr h1,
          contains_false_iff.mpr (fun hx => h1 (hiff.mpr hx))]
    simp only [firstOccsAux, ha]
    by_cases hc : s₂.contains a = true
    · simp only [hc, if_true]
      exact ih (fun x hx => h x (List.mem_cons_of_mem a hx))
    · have hc' : s₂.contains a = false := by simpa using hc
      simp only [hc', Bool.false_eq_true, if_false]
      congr 1
      refine ih (fun x hx => ?_)
      simp only [List.mem_cons]
      rw [h x (List.mem_cons_of_mem a hx)]

theorem length_foldl_insert {α β γ : Type} [DecidableEq α] (f : α × γ → β)
    (l : List (α × γ)) (m : List (α × β)) :
    (l.foldl (fun m e => dictInsert m e.1 (f e)) m).length =
      m.length + (firstOccsAux (m.map Prod.fst) (l.map Prod.fst)).length := by
  induction l generalizing m with
  | nil => simp [firstOccsAux]
  | cons e t ih =>
    simp only [List.foldl_cons, List.map_cons]
    rw [ih]
    by_cases h : dictHasKey m e.1 = true
    · have hc : (m.map Prod.fst).contains e.1 = true :=
        contains_true_iff.mpr (dictHasKey_iff_mem.mp h)
      simp only [firstOccsAux, hc, if_true]
      rw [length_dictInsert, if_pos h, map_fst_dictInsert, if_pos h]
    · have hc : (m.map Prod.fst).contains e.1 = false :=
        contains_false_iff.mpr (fun hx => h (dictHasKey_iff_mem.mpr hx))
      simp only [firstOccsAux, hc, Bool.false_eq_true, if_false]
      rw [length_dictInsert, if_neg h, map_fst_dictInsert, if_neg h]
      have hseen : firstOccsAux (m.map Prod.fst ++ [e.1]) (t.map Prod.fst) =
          firstOccsAux (e.1 :: m.map Prod.fst) (t.map Prod.fst) := by
        refine firstOccsAux_congr _ (fun x _ => ?_)
        simp [List.mem_append, List.mem_cons, or_comm]
      rw [hseen]
      simp [Nat.add_comm, Nat.add_assoc, Nat.add_left_comm]

/-! ## Lemmas about `pyRange` -/

theorem mem_pyRangeAux {T : ℤ} (hT : 0 < T) {n b : ℤ} :
    ∀ (fuel : Nat) (a : ℤ), (b - a).toNat ≤ fuel →
      (n ∈ pyRangeAux T fuel a b ↔ ∃ k : ℕ, n = a + T * k ∧ n < b) := by
  intro fuel
  induction fuel with
  | zero =>
    intro a hf
    simp only [pyRangeAux, List.not_mem_nil, false_iff]
    rintro ⟨k, rfl, hlt⟩
    have : 0 ≤ T * (k : ℤ) := by positivity
    omega
  | succ fuel ih =>
    intro a hf
    simp only [pyRangeAux]
    by_cases hab : a < b
    · rw [if_pos hab]
      simp only [List.mem_cons]
      rw [ih (a + T) (by omega)]
      constructor
      · rintro (rfl | ⟨k, rfl, hlt⟩)
        · exact ⟨0, by simp, hab⟩
        · exact ⟨k + 1, by push_cast; ring, hlt⟩
      · rintro ⟨k, rfl, hlt⟩
        cases k with
        | zero => simp
        | succ k =>
          right
          exact ⟨k, by push_cast; ring, hlt⟩
    · rw [if_neg hab]
      simp only [List.not_mem_nil, false_iff]
      rintro ⟨k, rfl, hlt⟩
      have : 0 ≤ T * (k : ℤ) := by positivity
      omega

theorem mem_pyRange {a b T n : ℤ} (hT : 0 < T) :
    n ∈ pyRange a b T ↔ ∃ k : ℕ, n = a + T * k ∧ n < b := by
  rw [pyRange, if_pos hT]
  exact mem_pyRangeAux hT (b - a).toNat a le_rfl

theorem pyRange_eq_nil {a b T : ℤ} (h : b ≤ a) : pyRange a b T = [] := by
  rw [pyRange]
  by_cases hT : 0 < T
  · rw [if_pos hT]
    have : (b - a).toNat = 0 := by omega
    rw [this]
    rfl
  · rw [if_neg hT]

theorem mem_pyRange_bounds {a b T n : ℤ} (hT : 0 < T) (h : n ∈ pyRange a b T) :
    a ≤ n ∧ n < b := by
  rcases (mem_pyRange hT).mp h with ⟨k, rfl, hlt⟩
  have : 0 ≤ T * (k : ℤ) := by positivity
  omega

/-! ## Lemmas about `dedupSort` -/

theorem mem_insSorted {x a : ℤ} {l : List ℤ} :
    x ∈ insSorted a l ↔ x = a ∨ x ∈ l := by
  induction l with
  | nil => simp [insSorted]
  | cons y t ih =>
    simp only [insSorted]
    by_cases h1 : a < y
    · simp only [if_pos h1, List.mem_cons]
    · rw [if_neg h1]
      by_cases h2 : a = y
      · rw [if_pos h2, h2]
        simp only [List.mem_cons]
        tauto
      · rw [if_neg h2]
        simp only [List.mem_cons, ih]
        tauto

theorem pairwise_insSorted {a : ℤ} {l : List ℤ} (h : l.Pairwise (· < ·)) :
    (insSorted a l).Pairwise (· < ·) := by
  induction l with
  | nil => simp [insSorted]
  | cons y t ih =>
    simp only [List.pairwise_cons] at h
    simp only [insSorted]
    by_cases h1 : a < y
    · rw [if_pos h1]
      refine List.Pairwise.cons ?_ (List.Pairwise.cons h.1 h.2)
      intro x hx
      rcases List.mem_cons.mp hx with rfl | hx
      · exact h1
      · exact lt_trans h1 (h.1 x hx)
    · rw [if_neg h1]
      by_cases h2 : a = y
      · rw [if_pos h2]
        exact List.Pairwise.cons h.1 h.2
      · rw [if_neg h2]
        refine List.Pairwise.cons ?_ (ih h.2)
        intro x hx
        rcases mem_insSorted.mp hx with rfl | hx
        · omega
        · exact h.1 x hx

theorem mem_foldl_insSorted {l : List ℤ} :
    ∀ (acc : List ℤ) (x : ℤ),
      x ∈ l.foldl (fun acc x => insSorted x acc) acc ↔ x ∈ acc ∨ x ∈ l := by
  induction l with
  | nil => simp
  | cons a t ih =>
    intro acc x
    simp only [List.foldl_cons, List.mem_cons]
    rw [ih]
    rw [mem_insSorted]
    tauto

theorem mem_dedupSort {l : List ℤ} {x : ℤ} : x ∈ dedupSort l ↔ x ∈ l := by
  rw [dedupSort, mem_foldl_insSorted]
  simp

theorem pairwise_dedupSort (l : List ℤ) : (dedupSort l).Pairwise (· < ·) := by
  rw [dedupSort]
  have : ∀ (acc : List ℤ), acc.Pairwise (· < ·) →
      (l.foldl (fun acc x => insSorted x acc) acc).Pairwise (· < ·) := by
    induction l with
    | nil => intro acc h; simpa
    | cons a t ih =>
      intro acc h
      simp only [List.foldl_cons]
      exact ih _ (pairwise_insSorted h)
  exact this [] (by simp)

theorem dedupSort_const {l : List ℤ} {c : ℤ} (h : ∀ x ∈ l, x = c) :
    dedupSort l = [] ∨ dedupSort l = [c] := by
  rw [dedupSort]
  have : ∀ (acc : List ℤ), acc = [] ∨ acc = [c] →
      l.foldl (fun acc x => insSorted x acc) acc = [] ∨
        l.foldl (fun acc x => insSorted x acc) acc = [c] := by
    induction l with
    | nil => intro acc h; simpa
    | cons a t ih =>
      intro acc hacc
      simp only [List.foldl_cons]
      have ha : a = c := h a (List.mem_cons_self a t)
      subst ha
      have hstep : insSorted a acc = [a] := by
        rcases hacc with rfl | rfl
        · rfl
        · simp [insSorted]
      rw [hstep]
      exact ih (fun x hx => h x (List.mem_cons_of_mem a hx)) [a] (Or.inr rfl)
  exact this [] (Or.inl rfl)

/-! ## Lemmas about `consecPairs` -/

theorem consecPairs_mem_both {α : Type} {l : List α} {a b : α}
    (h : (a, b) ∈ consecPairs l) : a ∈ l ∧ b ∈ l := by
  rw [consecPairs] at h
  have := List.of_mem_zip h
  exact ⟨this.1, l.tail_subset this.2⟩

theorem consecPairs_cons {α : Type} {u v : α} {t : List α} :
    consecPairs (u :: v :: t) = (u, v) :: consecPairs (v :: t) := rfl

theorem consecPairs_lt {l : List ℤ} (h : l.Pairwise (· < ·)) {a b : ℤ}
    (hm : (a, b) ∈ consecPairs l) : a < b := by
  induction l with
  | nil => simp [consecPairs] at hm
  | cons u t ih =>
    cases t with
    | nil => simp [consecPairs] at hm
    | cons v t' =>
      rw [consecPairs_cons] at hm
      obtain ⟨h1, h2⟩ := List.pairwise_cons.mp h
      rcases List.mem_cons.mp hm with heq | hm'
      · have ha : a = u := congrArg Prod.fst heq
        have hb : b = v := congrArg Prod.snd heq
        subst ha hb
        exact h1 b (List.mem_cons_self _ _)
      · exact ih h2 hm'

theorem consecPairs_min {l : List ℤ} (h : l.Pairwise (· < ·)) {a b : ℤ}
    (hm : (a, b) ∈ consecPairs l) : ∀ x ∈ l, a < x → b ≤ x := by
  induction l with
  | nil => simp [consecPairs] at hm
  | cons u t ih =>
    cases t with
    | nil => simp [consecPairs] at hm
    | cons v t' =>
      rw [consecPairs_cons] at hm
      obtain ⟨h1, h2⟩ := List.pairwise_cons.mp h
      rcases List.mem_cons.mp hm with heq | hm'
      · have ha : a = u := congrArg Prod.fst heq
        have hb : b = v := congrArg Prod.snd heq
        subst ha hb
        intro x hx hax
        rcases List.mem_cons.mp hx with rfl | hx
        · omega
        · rcases List.mem_cons.mp hx with rfl | hx
          · exact le_refl _
          · have hvx : b < x := (List.pairwise_cons.mp h2).1 x hx
            omega
      · intro x hx hax
        have hamem : a ∈ v :: t' := (consecPairs_mem_both hm').1
        rcases List.mem_cons.mp hx with rfl | hx
        · have : x < a := h1 a hamem
          omega
        · exact ih h2 hm' x hx hax

theorem consecPairs_not_between {l : List ℤ} (h : l.Pairwise (· < ·)) {a b : ℤ}
    (hm : (a, b) ∈ consecPairs l) : ∀ x ∈ l, ¬ (a < x ∧ x < b) := by
  rintro x hx ⟨h1, h2⟩
  have := consecPairs_min h hm x hx h1
  omega

theorem consecPairs_succ_exists {l : List ℤ} (h : l.Pairwise (· < ·)) {a x : ℤ}
    (ha : a ∈ l) (hx : x ∈ l) (hax : a < x) :
    ∃ b, (a, b) ∈ consecPairs l := by
  induction l with
  | nil => simp at ha
  | cons u t ih =>
    cases t with
    | nil =>
      simp only [List.mem_singleton] at ha hx
      omega
    | cons v t' =>
      obtain ⟨h1, h2⟩ := List.pairwise_cons.mp h
      rcases List.mem_cons.mp ha with rfl | ha'
      · exact ⟨v, by rw [consecPairs_cons]; exact List.mem_cons_self _ _⟩
      · have hx' : x ∈ v :: t' := by
          rcases List.mem_cons.mp hx with rfl | hx'
          · have : x < a := h1 a ha'
            omega
          · exact hx'
        obtain ⟨b, hb⟩ := ih h2 ha' hx'
        exact ⟨b, by rw [consecPairs_cons]; exact List.mem_cons_of_mem _ hb⟩

/-! ## Lemmas about `addToMulti` and the raw axis indexes -/

/-- Lookup after the in-place bucket-append branch of `addToMulti`, at the
bumped key. -/
theorem dictLookup_bump_self {α γ : Type} [DecidableEq α] {m : List (α × List γ)}
    {k : α} (v : γ) (hk : dictHasKey m k = true) :
    dictLookup (m.map (fun e => if e.1 = k then (e.1, e.2 ++ [v]) else e)) k =
      some ((dictLookup m k).getD [] ++ [v]) := by
  induction m with
  | nil => simp [dictHasKey, dictLookup] at hk
  | cons e t ih =>
    obtain ⟨a, b⟩ := e
    rw [dictHasKey] at hk
    simp only [dictLookup] at hk
    by_cases ha : a = k
    · subst ha
      simp [dictLookup]
    · rw [if_neg ha] at hk
      simp only [List.map_cons, if_neg ha]
      simp only [dictLookup, ha, if_neg ha]
      rw [ih hk]
      simp [dictLookup, ha]

/-- Lookup after the in-place bucket-append branch of `addToMulti`, at
another key. -/
theorem dictLookup_bump_ne {α γ : Type} [DecidableEq α] (m : List (α × List γ))
    (k k' : α) (v : γ) (h : k' ≠ k) :
    dictLookup (m.map (fun e => if e.1 = k then (e.1, e.2 ++ [v]) else e)) k' =
      dictLookup m k' := by
  induction m with
  | nil => simp [dictLookup]
  | cons e t ih =>
    obtain ⟨a, b⟩ := e
    by_cases ha : a = k
    · subst ha
      simp only [List.map_cons, if_pos rfl]
      simp only [dictLookup]
      simp [Ne.symm h, ih]
    · simp only [List.map_cons, if_neg ha]
      simp only [dictLookup]
      by_cases ha' : a = k'
      · simp [ha']
      · simp [ha', ih]

theorem addToMulti_lookup_self {α γ : Type} [DecidableEq α] (m : List (α × List γ))
    (k : α) (v : γ) :
    dictLookup (addToMulti m k v) k = some ((dictLookup m k).getD [] ++ [v]) := by
  unfold addToMulti
  by_cases h : dictHasKey m k = true
  · simp only [h, if_true]
    exact dictLookup_bump_self v h
  · simp only [h, Bool.false_eq_true, if_false]
    have hnone : dictLookup m k = none := by
      cases hl : dictLookup m k
      · rfl
      · rw [dictHasKey, hl] at h
        simp at h
    rw [hnone]
    simp only [Option.getD_none, List.nil_append]
    exact dictLookup_append_self [v] hnone

theorem addToMulti_lookup_ne {α γ : Type} [DecidableEq α] (m : List (α × List γ))
    (k k' : α) (v : γ) (h : k' ≠ k) :
    dictLookup (addToMulti m k v) k' = dictLookup m k' := by
  unfold addToMulti
  by_cases hk : dictHasKey m k = true
  · simp only [hk, if_true]
    exact dictLookup_bump_ne m k k' v h
  · simp only [hk, Bool.false_eq_true, if_false]
    exact dictLookup_append_ne m k k' [v] h

theorem map_fst_addToMulti {α γ : Type} [DecidableEq α] (m : List (α × List γ))
    (k : α) (v : γ) :
    (addToMulti m k v).map Prod.fst =
      if dictHasKey m k then m.map Prod.fst else m.map Prod.fst ++ [k] := by
  unfold addToMulti
  by_cases h : dictHasKey m k = true
  · simp only [h, if_true, List.map_map]
    refine List.map_congr_left ?_
    intro e _
    by_cases he : e.1 = k <;> simp [he]
  · simp [h]

theorem nodup_fst_addToMulti {α γ : Type} [DecidableEq α] {m : List (α × List γ)}
    (k : α) (v : γ) (hn : (m.map Prod.fst).Nodup) :
    ((addToMulti m k v).map Prod.fst).Nodup := by
  rw [map_fst_addToMulti]
  by_cases h : dictHasKey m k = true
  · simpa [h]
  · simp only [h, Bool.false_eq_true, if_false]
    refine List.Nodup.append hn (List.nodup_singleton k) ?_
    intro x hx hk
    simp only [List.mem_singleton] at hk
    subst hk
    exact h (dictHasKey_iff_mem.mpr hx)

theorem addToMulti_entry_ne_nil {α γ : Type} [DecidableEq α] {m : List (α × List γ)}
    (k : α) (v : γ) (h : ∀ e ∈ m, e.2 ≠ []) :
    ∀ e ∈ addToMulti m k v, e.2 ≠ [] := by
  unfold addToMulti
  by_cases hk : dictHasKey m k = true
  · simp only [hk, if_true]
    intro e he
    obtain ⟨e', he', rfl⟩ := List.mem_map.mp he
    by_cases he1 : e'.1 = k
    · simp [he1]
    · simp only [if_neg he1]
      exact h e' he'
  · simp only [hk, Bool.false_eq_true, if_false]
    intro e he
    rcases List.mem_append.mp he with he | he
    · exact h e he
    · simp only [List.mem_singleton] at he
      subst he
      simp

/-- Membership characterisation of the raw multi-map fold: the bucket of
key `k` holds exactly the `ν`-values of the points whose `κ`-value is `k`. -/
theorem multiFold_lookup_char (κ ν : Pt → ℤ) (pts : List Pt) (k x : ℤ) :
    x ∈ (dictLookup (pts.foldl (fun m p => addToMulti m (κ p) (ν p)) []) k).getD []
      ↔ ∃ p ∈ pts, κ p = k ∧ ν p = x := by
  induction pts using List.reverseRecOn with
  | nil => simp [dictLookup]
  | append_singleton l p ih =>
    rw [List.foldl_append]
    simp only [List.foldl_cons, List.foldl_nil]
    by_cases hk : κ p = k
    · rw [hk, addToMulti_lookup_self]
      simp only [Option.getD_some]
      rw [List.mem_append, List.mem_singleton, ih]
      constructor
      · rintro (⟨q, hq, hqk, hqx⟩ | rfl)
        · exact ⟨q, List.mem_append_left [p] hq, hqk, hqx⟩
        · exact ⟨p, List.mem_append_right l (List.mem_singleton_self p), hk, rfl⟩
      · rintro ⟨q, hq, hqk, hqx⟩
        rcases List.mem_append.mp hq with hq | hq
        · exact Or.inl ⟨q, hq, hqk, hqx⟩
        · simp only [List.mem_singleton] at hq
          subst hq
          exact Or.inr hqx.symm
    · rw [addToMulti_lookup_ne _ _ _ _ (fun hkk => hk hkk.symm)]
      rw [ih]
      constructor
      · rintro ⟨q, hq, hqk, hqx⟩
        exact ⟨q, List.mem_append_left [p] hq, hqk, hqx⟩
      · rintro ⟨q, hq, hqk, hqx⟩
        rcases List.mem_append.mp hq with hq | hq
        · exact ⟨q, hq, hqk, hqx⟩
        · simp only [List.mem_singleton] at hq
          subst hq
          exact absurd hqk hk

theorem nodup_fst_multiFold (κ ν : Pt → ℤ) (pts : List Pt) :
    ((pts.foldl (fun m p => addToMulti m (κ p) (ν p)) []).map Prod.fst).Nodup := by
  have h : ∀ (init : List (ℤ × List ℤ)), (init.map Prod.fst).Nodup →
      ((pts.foldl (fun m p => addToMulti m (κ p) (ν p)) init).map Prod.fst).Nodup := by
    induction pts with
    | nil => intro init h; simpa
    | cons p t ih =>
      intro init h
      simp only [List.foldl_cons]
      exact ih _ (nodup_fst_addToMulti _ _ h)
  exact h [] (by simp)

theorem multiFold_entry_ne_nil (κ ν : Pt → ℤ) (pts : List Pt) :
    ∀ e ∈ pts.foldl (fun m p => addToMulti m (κ p) (ν p)) [], e.2 ≠ [] := by
  have h : ∀ (init : List (ℤ × List ℤ)), (∀ e ∈ init, e.2 ≠ []) →
      ∀ e ∈ pts.foldl (fun m p => addToMulti m (κ p) (ν p)) init, e.2 ≠ [] := by
    induction pts with
    | nil => intro init h; simpa using h
    | cons p t ih =>
      intro init h
      simp only [List.foldl_cons]
      exact ih _ (addToMulti_entry_ne_nil _ _ h)
  exact h [] (by simp)

/-! ## Characterising the point store and the axis indexes -/

theorem colToRowsRaw_eq (pts : List Pt) :
    colToRowsRaw pts = pts.foldl (fun m p => addToMulti m (Pt.col p) (Pt.row p)) [] := rfl

theorem rowToColsRaw_eq (pts : List Pt) :
    rowToColsRaw pts = pts.foldl (fun m p => addToMulti m (Pt.row p) (Pt.col p)) [] := rfl

theorem colRowMap_hasKey (pts : List Pt) (k : HKey) :
    dictHasKey (colRowMap pts) k = true ↔ ∃ p ∈ pts, (p.col, p.row) = k := by
  rw [colRowMap]
  induction pts using List.reverseRecOn with
  | nil => simp [dictHasKey, dictLookup]
  | append_singleton l p ih =>
    rw [List.foldl_append]
    simp only [List.foldl_cons, List.foldl_nil]
    rw [dictHasKey_insert, ih]
    constructor
    · rintro (⟨q, hq, hqk⟩ | rfl)
      · exact ⟨q, List.mem_append_left [p] hq, hqk⟩
      · exact ⟨p, List.mem_append_right l (List.mem_singleton_self p), rfl⟩
    · rintro ⟨q, hq, hqk⟩
      rcases List.mem_append.mp hq with hq | hq
      · exact Or.inl ⟨q, hq, hqk⟩
      · simp only [List.mem_singleton] at hq
        subst hq
        exact Or.inr hqk.symm

theorem colRowMap_nodup (pts : List Pt) : ((colRowMap pts).map Prod.fst).Nodup := by
  rw [colRowMap]
  have h : ∀ (init : List (HKey × HVal)), (init.map Prod.fst).Nodup →
      ((pts.foldl (fun m p => dictInsert m (p.col, p.row) (p.x, p.y, p.z)) init).map
        Prod.fst).Nodup := by
    induction pts with
    | nil => intro init h; simpa
    | cons p t ih =>
      intro init h
      simp only [List.foldl_cons]
      exact ih _ (nodup_fst_dictInsert _ _ h)
  exact h [] (by simp)

theorem colToRows_rows_char {pts : List Pt} {c : ℤ} {rows : List ℤ}
    (h : (c, rows) ∈ colToRows pts) :
    ∀ x, x ∈ rows ↔ ∃ p ∈ pts, p.col = c ∧ p.row = x := by
  obtain ⟨e, he, heq⟩ := List.mem_map.mp h
  have hc : e.1 = c := congrArg Prod.fst heq
  have hrows : dedupSort e.2 = rows := congrArg Prod.snd heq
  have hmem : (c, e.2) ∈ colToRowsRaw pts := by
    rw [← hc]
    exact he
  have hlook : dictLookup (colToRowsRaw pts) c = some e.2 :=
    dictLookup_mem_of_nodup (colToRowsRaw_eq pts ▸ nodup_fst_multiFold Pt.col Pt.row pts) hmem
  intro x
  rw [← hrows, mem_dedupSort]
  have hch := multiFold_lookup_char Pt.col Pt.row pts c x
  rw [← colToRowsRaw_eq, hlook] at hch
  simpa using hch

theorem rowToCols_cols_char {pts : List Pt} {r : ℤ} {cols : List ℤ}
    (h : (r, cols) ∈ rowToCols pts) :
    ∀ x, x ∈ cols ↔ ∃ p ∈ pts, p.row = r ∧ p.col = x := by
  obtain ⟨e, he, heq⟩ := List.mem_map.mp h
  have hr : e.1 = r := congrArg Prod.fst heq
  have hcols : dedupSort e.2 = cols := congrArg Prod.snd heq
  have hmem : (r, e.2) ∈ rowToColsRaw pts := by
    rw [← hr]
    exact he
  have hlook : dictLookup (rowToColsRaw pts) r = some e.2 :=
    dictLookup_mem_of_nodup (rowToColsRaw_eq pts ▸ nodup_fst_multiFold Pt.row Pt.col pts) hmem
  intro x
  rw [← hcols, mem_dedupSort]
  have hch := multiFold_lookup_char Pt.row Pt.col pts r x
  rw [← rowToColsRaw_eq, hlook] at hch
  simpa using hch

theorem colToRows_sorted {pts : List Pt} {c : ℤ} {rows : List ℤ}
    (h : (c, rows) ∈ colToRows pts) : rows.Pairwise (· < ·) := by
  obtain ⟨e, _, heq⟩ := List.mem_map.mp h
  have hrows : dedupSort e.2 = rows := congrArg Prod.snd heq
  rw [← hrows]
  exact pairwise_dedupSort e.2

theorem rowToCols_sorted {pts : List Pt} {r : ℤ} {cols : List ℤ}
    (h : (r, cols) ∈ rowToCols pts) : cols.Pairwise (· < ·) := by
  obtain ⟨e, _, heq⟩ := List.mem_map.mp h
  have hcols : dedupSort e.2 = cols := congrArg Prod.snd heq
  rw [← hcols]
  exact pairwise_dedupSort e.2

theorem colToRows_exists {pts : List Pt} {p : Pt} (hp : p ∈ pts) :
    ∃ rows, (p.col, rows) ∈ colToRows pts ∧ p.row ∈ rows := by
  have hx := (multiFold_lookup_char Pt.col Pt.row pts p.col p.row).mpr ⟨p, hp, rfl, rfl⟩
  rw [← colToRowsRaw_eq] at hx
  cases hl : dictLookup (colToRowsRaw pts) p.col with
  | none =>
    rw [hl] at hx
    simp at hx
  | some rl =>
    have hmem : (p.col, rl) ∈ colToRowsRaw pts := dictLookup_some_mem hl
    refine ⟨dedupSort rl, List.mem_map.mpr ⟨(p.col, rl), hmem, rfl⟩, ?_⟩
    rw [mem_dedupSort]
    rw [hl] at hx
    simpa using hx

theorem rowToCols_exists {pts : List Pt} {p : Pt} (hp : p ∈ pts) :
    ∃ cols, (p.row, cols) ∈ rowToCols pts ∧ p.col ∈ cols := by
  have hx := (multiFold_lookup_char Pt.row Pt.col pts p.row p.col).mpr ⟨p, hp, rfl, rfl⟩
  rw [← rowToColsRaw_eq] at hx
  cases hl : dictLookup (rowToColsRaw pts) p.row with
  | none =>
    rw [hl] at hx
    simp at hx
  | some cl =>
    have hmem : (p.row, cl) ∈ rowToColsRaw pts := dictLookup_some_mem hl
    refine ⟨dedupSort cl, List.mem_map.mpr ⟨(p.row, cl), hmem, rfl⟩, ?_⟩
    rw [mem_dedupSort]
    rw [hl] at hx
    simpa using hx

theorem colToRows_nodup_fst (pts : List Pt) :
    ((colToRows pts).map Prod.fst).Nodup := by
  rw [colToRows, List.map_map]
  have : (Prod.fst ∘ fun e : ℤ × List ℤ => (e.1, dedupSort e.2)) = Prod.fst := rfl
  rw [this]
  exact colToRowsRaw_eq pts ▸ nodup_fst_multiFold Pt.col Pt.row pts

theorem rowToCols_nodup_fst (pts : List Pt) :
    ((rowToCols pts).map Prod.fst).Nodup := by
  rw [rowToCols, List.map_map]
  have : (Prod.fst ∘ fun e : ℤ × List ℤ => (e.1, dedupSort e.2)) = Prod.fst := rfl
  rw [this]
  exact rowToColsRaw_eq pts ▸ nodup_fst_multiFold Pt.row Pt.col pts

theorem colToRows_unique {pts : List Pt} {c : ℤ} {r1 r2 : List ℤ}
    (h1 : (c, r1) ∈ colToRows pts) (h2 : (c, r2) ∈ colToRows pts) : r1 = r2 := by
  have e1 := dictLookup_mem_of_nodup (colToRows_nodup_fst pts) h1
  have e2 := dictLookup_mem_of_nodup (colToRows_nodup_fst pts) h2
  rw [e1] at e2
  exact Option.some.inj e2

theorem colToRows_entry_from_point {pts : List Pt} {c : ℤ} {rows : List ℤ}
    (h : (c, rows) ∈ colToRows pts) : ∃ p ∈ pts, p.col = c := by
  obtain ⟨e, he, heq⟩ := List.mem_map.mp h
  have hne : e.2 ≠ [] := (colToRowsRaw_eq pts ▸ multiFold_entry_ne_nil Pt.col Pt.row pts) e he
  obtain ⟨x, hx⟩ := List.exists_mem_of_ne_nil e.2 hne
  have hc : e.1 = c := congrArg Prod.fst heq
  have hrows : dedupSort e.2 = rows := congrArg Prod.snd heq
  have hxrows : x ∈ rows := by
    rw [← hrows, mem_dedupSort]
    exact hx
  obtain ⟨p, hp, hpc, _⟩ := (colToRows_rows_char h x).mp hxrows
  exact ⟨p, hp, hpc⟩

theorem rowToCols_entry_from_point {pts : List Pt} {r : ℤ} {cols : List ℤ}
    (h : (r, cols) ∈ rowToCols pts) : ∃ p ∈ pts, p.row = r := by
  obtain ⟨e, he, heq⟩ := List.mem_map.mp h
  have hne : e.2 ≠ [] := (rowToColsRaw_eq pts ▸ multiFold_entry_ne_nil Pt.row Pt.col pts) e he
  obtain ⟨x, hx⟩ := List.exists_mem_of_ne_nil e.2 hne
  have hr : e.1 = r := congrArg Prod.fst heq
  have hcols : dedupSort e.2 = cols := congrArg Prod.snd heq
  have hxcols : x ∈ cols := by
    rw [← hcols, mem_dedupSort]
    exact hx
  obtain ⟨p, hp, hpr, _⟩ := (rowToCols_cols_char h x).mp hxcols
  exact ⟨p, hp, hpr⟩

/-! ## Lemmas about the two generation passes -/

theorem mem_colPassGap {m : List (HKey × HVal)} {c cur nxt T : ℤ} {e : HKey × (ℚ × ℚ)} :
    e ∈ colPassGap m c cur nxt T ↔
      ∃ n, n ∈ pyRange (cur + T) nxt T ∧ dictHasKey m (c, n) = false ∧
        e = ((c, n), ((dictGetD m (c, cur)).1,
          (dictGetD m (c, cur)).2.1 +
            ((dictGetD m (c, nxt)).2.1 - (dictGetD m (c, cur)).2.1) *
              (((n : ℚ) - (cur : ℚ)) / ((nxt : ℚ) - (cur : ℚ))))) := by
  rw [colPassGap, List.mem_filterMap]
  constructor
  · rintro ⟨n, hn, hf⟩
    by_cases hk : dictHasKey m (c, n) = true
    · rw [if_pos hk] at hf
      cases hf
    · rw [if_neg hk] at hf
      refine ⟨n, hn, by simpa using hk, ?_⟩
      exact (Option.some.inj hf).symm
  · rintro ⟨n, hn, hk, rfl⟩
    refine ⟨n, hn, ?_⟩
    rw [if_neg (by simp [hk])]

theorem mem_rowPassGap {m : List (HKey × HVal)} {r cur nxt T : ℤ} {e : HKey × (ℚ × ℚ)} :
    e ∈ rowPassGap m r cur nxt T ↔
      ∃ n, n ∈ pyRange (cur + T) nxt T ∧ dictHasKey m (n, r) = false ∧
        e = ((n, r), ((dictGetD m (cur, r)).1 +
            ((dictGetD m (nxt, r)).1 - (dictGetD m (cur, r)).1) *
              (((n : ℚ) - (cur : ℚ)) / ((nxt : ℚ) - (cur : ℚ))),
          (dictGetD m (cur, r)).2.1)) := by
  rw [rowPassGap, List.mem_filterMap]
  constructor
  · rintro ⟨n, hn, hf⟩
    by_cases hk : dictHasKey m (n, r) = true
    · rw [if_pos hk] at hf
      cases hf
    · rw [if_neg hk] at hf
      refine ⟨n, hn, by simpa using hk, ?_⟩
      exact (Option.some.inj hf).symm
  · rintro ⟨n, hn, hk, rfl⟩
    refine ⟨n, hn, ?_⟩
    rw [if_neg (by simp [hk])]

theorem mem_colPass {m : List (HKey × HVal)} {ctr : List (ℤ × List ℤ)} {T : ℤ}
    {e : HKey × (ℚ × ℚ)} :
    e ∈ colPass m ctr T ↔
      ∃ c rows, (c, rows) ∈ ctr ∧
        ∃ pr ∈ consecPairs rows, e ∈ colPassGap m c pr.1 pr.2 T := by
  rw [colPass, List.mem_flatMap]
  constructor
  · rintro ⟨⟨c, rows⟩, ha, he⟩
    rw [List.mem_flatMap] at he
    obtain ⟨pr, hpr, he⟩ := he
    exact ⟨c, rows, ha, pr, hpr, he⟩
  · rintro ⟨c, rows, ha, pr, hpr, he⟩
    exact ⟨(c, rows), ha, List.mem_flatMap.mpr ⟨pr, hpr, he⟩⟩

theorem mem_rowPass {m : List (HKey × HVal)} {rtc : List (ℤ × List ℤ)} {T : ℤ}
    {e : HKey × (ℚ × ℚ)} :
    e ∈ rowPass m rtc T ↔
      ∃ r cols, (r, cols) ∈ rtc ∧
        ∃ pr ∈ consecPairs cols, e ∈ rowPassGap m r pr.1 pr.2 T := by
  rw [rowPass, List.mem_flatMap]
  constructor
  · rintro ⟨⟨r, cols⟩, ha, he⟩
    rw [List.mem_flatMap] at he
    obtain ⟨pr, hpr, he⟩ := he
    exact ⟨r, cols, ha, pr, hpr, he⟩
  · rintro ⟨r, cols, ha, pr, hpr, he⟩
    exact ⟨(r, cols), ha, List.mem_flatMap.mpr ⟨pr, hpr, he⟩⟩

theorem colPassGap_eq_nil {m : List (HKey × HVal)} {c cur nxt T : ℤ}
    (h : nxt ≤ cur + T) : colPassGap m c cur nxt T = [] := by
  rw [colPassGap, pyRange_eq_nil h]
  rfl

theorem rowPassGap_eq_nil {m : List (HKey × HVal)} {r cur nxt T : ℤ}
    (h : nxt ≤ cur + T) : rowPassGap m r cur nxt T = [] := by
  rw [rowPassGap, pyRange_eq_nil h]
  rfl

theorem colPass_eq_nil {m : List (HKey × HVal)} {ctr : List (ℤ × List ℤ)} {T : ℤ}
    (h : ∀ e ∈ ctr, ∀ pr ∈ consecPairs e.2, pr.2 ≤ pr.1 + T) :
    colPass m ctr T = [] := by
  rw [List.eq_nil_iff_forall_not_mem]
  intro e he
  obtain ⟨c, rows, ha, pr, hpr, hg⟩ := mem_colPass.mp he
  rw [colPassGap_eq_nil (h (c, rows) ha pr hpr)] at hg
  exact List.not_mem_nil e hg

theorem rowPass_eq_nil {m : List (HKey × HVal)} {rtc : List (ℤ × List ℤ)} {T : ℤ}
    (h : ∀ e ∈ rtc, ∀ pr ∈ consecPairs e.2, pr.2 ≤ pr.1 + T) :
    rowPass m rtc T = [] := by
  rw [List.eq_nil_iff_forall_not_mem]
  intro e he
  obtain ⟨r, cols, ha, pr, hpr, hg⟩ := mem_rowPass.mp he
  rw [rowPassGap_eq_nil (h (r, cols) ha pr hpr)] at hg
  exact List.not_mem_nil e hg

/-- Every emitted candidate passed the `(col,new_row) not in new_points`
guard, and during generation `new_points` holds exactly the original
store: candidate keys are fresh with respect to the Point Store. -/
theorem needInterp_fresh (pts : List Pt) (T : ℤ) :
    ∀ e ∈ needInterp pts T, dictHasKey (colRowMap pts) e.1 = false := by
  intro e he
  rw [needInterp] at he
  rcases List.mem_append.mp he with he | he
  · obtain ⟨c, rows, _, pr, _, hg⟩ := mem_colPass.mp he
    obtain ⟨n, _, hk, rfl⟩ := mem_colPassGap.mp hg
    exact hk
  · obtain ⟨r, cols, _, pr, _, hg⟩ := mem_rowPass.mp he
    obtain ⟨n, _, hk, rfl⟩ := mem_rowPassGap.mp hg
    exact hk

/-! ## Lemmas about the value estimator and the output sort -/

theorem nearestZ_from_sample {s : List ((ℚ × ℚ) × ℚ)} {q : ℚ × ℚ} (h : s ≠ []) :
    ∃ e ∈ s, nearestZ s q = e.2 := by
  cases s with
  | nil => exact absurd rfl h
  | cons e t =>
    rw [nearestZ]
    have hfold : ∀ (t : List ((ℚ × ℚ) × ℚ)) (e : (ℚ × ℚ) × ℚ),
        (t.foldl (fun best e2 => if sqDist e2.1 q < sqDist best.1 q then e2 else best) e) = e ∨
        (t.foldl (fun best e2 => if sqDist e2.1 q < sqDist best.1 q then e2 else best) e) ∈ t := by
      intro t
      induction t with
      | nil => intro e; exact Or.inl rfl
      | cons a t' ih =>
        intro e
        simp only [List.foldl_cons]
        rcases ih (if sqDist a.1 q < sqDist e.1 q then a else e) with hr | hr
        · rw [hr]
          by_cases hd : sqDist a.1 q < sqDist e.1 q
          · rw [if_pos hd]
            exact Or.inr (List.mem_cons_self a t')
          · rw [if_neg hd]
            exact Or.inl rfl
        · exact Or.inr (List.mem_cons_of_mem a hr)
    rcases hfold t e with hr | hr
    · exact ⟨e, List.mem_cons_self e t, by rw [hr]⟩
    · exact ⟨_, List.mem_cons_of_mem e hr, rfl⟩

theorem mem_insEntry {e f : HKey × HVal} {l : List (HKey × HVal)} :
    f ∈ insEntry e l ↔ f = e ∨ f ∈ l := by
  induction l with
  | nil => simp [insEntry]
  | cons a t ih =>
    rw [insEntry]
    by_cases h : keyLe e.1 a.1
    · simp [h, List.mem_cons]
    · simp only [h, Bool.false_eq_true, if_false, List.mem_cons, ih]
      tauto

theorem mem_sortEntries {l : List (HKey × HVal)} {x : HKey × HVal} :
    x ∈ sortEntries l ↔ x ∈ l := by
  rw [sortEntries]
  induction l with
  | nil => simp
  | cons a t ih =>
    simp only [List.foldr_cons, List.mem_cons]
    rw [mem_insEntry, ih]

/-! ## Claim theorems -/

/-- Claim C9 (confirmed): if zero valid data points are parsed from the
input, `interpolate_horizon` returns at lines 101–103 without performing
the densification and without writing any output (modelled as `none`). -/
theorem C9_empty_input (pF : List Line → Option Pt) (primary : ℚ × ℚ → Option ℚ)
    (lines : List Line) (T : ℤ) (h : (readHorizonFile pF lines).2 = []) :
    interpolateHorizon pF primary lines T = none := by
  rw [interpolateHorizon]
  simp [h]

/-- Witness for C9: the empty input parses to zero points and the run
produces no output. -/
theorem C9_witness :
    (readHorizonFile pFNone []).2 = [] ∧
      interpolateHorizon pFNone primNone [] 4 = none :=
  ⟨rfl, C9_empty_input pFNone primNone [] 4 rfl⟩

/-- Claim C10 (confirmed): every (col,row) key of the input Point Store
keeps exactly its original (x,y,z) triple in the final output mapping;
candidate insertion never overwrites an original point. -/
theorem C10_originals_kept (primary : ℚ × ℚ → Option ℚ) (pts : List Pt) (T : ℤ)
    (k : HKey) (h : dictHasKey (colRowMap pts) k = true) :
    dictLookup (newPoints primary pts T) k = dictLookup (colRowMap pts) k := by
  rw [newPoints]
  apply foldl_insert_lookup_frozen
  intro e he hek
  have hf := needInterp_fresh pts T e he
  rw [hek, h] at hf
  cases hf

/-- Witness for C10 at a concrete original key of `exDup`. -/
theorem C10_witness :
    dictHasKey (colRowMap exDup) ((0 : ℤ), (0 : ℤ)) = true ∧
      dictLookup (newPoints primNone exDup 4) ((0 : ℤ), (0 : ℤ)) =
        dictLookup (colRowMap exDup) ((0 : ℤ), (0 : ℤ)) :=
  ⟨by with_unfolding_all decide,
    C10_originals_kept primNone exDup 4 ((0 : ℤ), (0 : ℤ)) (by with_unfolding_all decide)⟩

/-- Claim C7 (confirmed): every generated candidate ends in the final
mapping with a z that is total — the primary estimate when it is defined,
otherwise the nearest-sample fallback, which always returns the z of some
input point.  (The source's NaN sentinel is the `none` of the abstract
primary estimator; in the rational model every produced z is finite.) -/
theorem C7_total_z (primary : ℚ × ℚ → Option ℚ) (pts : List Pt) (T : ℤ) (k : HKey)
    (h : k ∈ (needInterp pts T).map Prod.fst) :
    ∃ x y : ℚ,
      dictLookup (newPoints primary pts T) k =
        some (x, y, fallbackZ primary (samples pts) (x, y)) ∧
      (primary (x, y) = none →
        ∃ p ∈ pts, fallbackZ primary (samples pts) (x, y) = p.z) := by
  obtain ⟨e, he, rfl⟩ := List.mem_map.mp h
  rw [newPoints, foldl_insert_lookup]
  cases hfind : (needInterp pts T).reverse.find? (fun e2 => decide (e2.1 = e.1)) with
  | none =>
    rw [List.find?_eq_none] at hfind
    exact absurd (by simp) (hfind e (List.mem_reverse.mpr he))
  | some e₀ =>
    have he₀ : e₀ ∈ needInterp pts T := List.mem_reverse.mp (List.mem_of_find?_eq_some hfind)
    refine ⟨e₀.2.1, e₀.2.2, rfl, ?_⟩
    intro hnone
    simp only [fallbackZ, hnone]
    have hpts : pts ≠ [] := by
      rintro rfl
      have hni : needInterp ([] : List Pt) T = [] := rfl
      rw [hni] at he₀
      exact List.not_mem_nil _ he₀
    have hs : samples pts ≠ [] := by
      cases pts with
      | nil => exact absurd rfl hpts
      | cons a t => simp [samples]
    obtain ⟨s, hsmem, hz⟩ := @nearestZ_from_sample (samples pts) (e₀.2.1, e₀.2.2) hs
    rw [samples] at hsmem
    obtain ⟨p, hp, rfl⟩ := List.mem_map.mp hsmem
    exact ⟨p, hp, by rw [hz]⟩

/-- Witness for C7 at the concrete duplicated candidate key of `exDup`. -/
theorem C7_witness :
    ∃ x y : ℚ,
      dictLookup (newPoints primNone exDup 4) ((0 : ℤ), (4 : ℤ)) =
        some (x, y, fallbackZ primNone (samples exDup) (x, y)) ∧
      (primNone (x, y) = none →
        ∃ p ∈ exDup, fallbackZ primNone (samples exDup) (x, y) = p.z) :=
  C7_total_z primNone exDup 4 ((0 : ℤ), (4 : ℤ)) (by with_unfolding_all decide)

/-- Counterexample to claim C1: in `exDup` with spacing 4 the column pass
and the row pass both emit the key (0,4) (the duplicate is visible in the
candidate key list), so the emitted keys are not pairwise distinct and the
final mapping size is 5, not 4 originals + 2 emitted candidates. -/
theorem C1_counterexample :
    (colRowMap exDup).length = 4 ∧
    (needInterp exDup 4).length = 2 ∧
    ¬ ((needInterp exDup 4).map Prod.fst).Nodup ∧
    (newPoints primNone exDup 4).length = 5 ∧
    (newPoints primNone exDup 4).length ≠
      (colRowMap exDup).length + (needInterp exDup 4).length := by
  with_unfolding_all decide

/-- Claim C1 (amended): every emitted candidate key is distinct from every
Point Store key, and the final output mapping has no duplicate (col,row)
keys; but the column pass and the row pass can emit the same key, so the
output size equals the original point count plus the number of *distinct*
candidate keys (which can be smaller than the emitted candidate count). -/
theorem C1_amended_law (primary : ℚ × ℚ → Option ℚ) (pts : List Pt) (T : ℤ) :
    (∀ e ∈ needInterp pts T, dictHasKey (colRowMap pts) e.1 = false) ∧
    ((newPoints primary pts T).map Prod.fst).Nodup ∧
    (newPoints primary pts T).length =
      (colRowMap pts).length + (firstOccs ((needInterp pts T).map Prod.fst)).length := by
  refine ⟨needInterp_fresh pts T, ?_, ?_⟩
  · rw [newPoints]
    exact nodup_foldl_insert _ _ _ (colRowMap_nodup pts)
  · rw [newPoints, length_foldl_insert]
    congr 1
    rw [firstOccs]
    apply congrArg List.length
    apply firstOccsAux_congr
    intro x hx
    obtain ⟨e, he, rfl⟩ := List.mem_map.mp hx
    have hf := needInterp_fresh pts T e he
    constructor
    · intro hmem
      rw [dictHasKey_iff_mem.mpr hmem] at hf
      cases hf
    · intro hmem
      simp at hmem

/-- Witness for the amended C1: on `exDup` the freshness holds at the
emitted column-pass candidate and the size law gives 4 + 1 = 5. -/
theorem C1_witness :
    dictHasKey (colRowMap exDup) ((0 : ℤ), (4 : ℤ)) = false ∧
    (newPoints primNone exDup 4).length =
      (colRowMap exDup).length + (firstOccs ((needInterp exDup 4).map Prod.fst)).length := by
  have h := C1_amended_law primNone exDup 4
  exact ⟨h.1 (((0 : ℤ), (4 : ℤ)), ((10 : ℚ), (4 : ℚ))) (by with_unfolding_all decide), h.2.2⟩

/-- Counterexample to claim C2: in `exDup` both passes emit key (0,4) with
different x (10 from the column pass, then 0 from the row pass), and the
value kept in the final mapping is the row-pass one — the *last*-inserted,
not the first-inserted. -/
theorem C2_counterexample :
    (needInterp exDup 4).map Prod.fst = [((0 : ℤ), (4 : ℤ)), ((0 : ℤ), (4 : ℤ))] ∧
    (needInterp exDup 4).map (fun e => e.2.1) = [(10 : ℚ), (0 : ℚ)] ∧
    (dictLookup (newPoints primNone exDup 4) ((0 : ℤ), (4 : ℤ))).map (fun v => v.1) =
      some (0 : ℚ) ∧
    (0 : ℚ) ≠ 10 := by
  with_unfolding_all decide

/-- Claim C2 (amended): when a (col,row) key is emitted more than once
(the two passes can collide), the value kept in the final mapping is the
*last*-inserted one — the candidate emitted latest in generation order,
i.e. the row-pass value on a cross-pass collision. -/
theorem C2_amended_law (primary : ℚ × ℚ → Option ℚ) (pts : List Pt) (T : ℤ)
    (k : HKey) (h : k ∈ (needInterp pts T).map Prod.fst) :
    dictLookup (newPoints primary pts T) k =
      ((needInterp pts T).reverse.find? (fun e => decide (e.1 = k))).map
        (fun e => (e.2.1, e.2.2, fallbackZ primary (samples pts) e.2)) := by
  obtain ⟨e, he, rfl⟩ := List.mem_map.mp h
  rw [newPoints, foldl_insert_lookup]
  cases hfind : (needInterp pts T).reverse.find? (fun e2 => decide (e2.1 = e.1)) with
  | none =>
    rw [List.find?_eq_none] at hfind
    exact absurd (by simp) (hfind e (List.mem_reverse.mpr he))
  | some e₀ => rfl

/-- Witness for the amended C2 at the duplicated key of `exDup`. -/
theorem C2_witness :
    dictLookup (newPoints primNone exDup 4) ((0 : ℤ), (4 : ℤ)) =
      ((needInterp exDup 4).reverse.find? (fun e => decide (e.1 = ((0 : ℤ), (4 : ℤ))))).map
        (fun e => (e.2.1, e.2.2, fallbackZ primNone (samples exDup) e.2)) :=
  C2_amended_law primNone exDup 4 ((0 : ℤ), (4 : ℤ)) (by with_unfolding_all decide)

/-- The `max(filtered.items(), key=count)` fold keeps an element of maximal
count, preferring the earliest on ties. -/
theorem foldl_pickMax_spec (cnt : ℤ → ℕ) :
    ∀ (t : List ℤ) (k : ℤ),
      (t.foldl (fun best g => if cnt best < cnt g then g else best) k = k ∨
        t.foldl (fun best g => if cnt best < cnt g then g else best) k ∈ t) ∧
      cnt k ≤ cnt (t.foldl (fun best g => if cnt best < cnt g then g else best) k) ∧
      ∀ g ∈ t, cnt g ≤ cnt (t.foldl (fun best g => if cnt best < cnt g then g else best) k) := by
  intro t
  induction t with
  | nil =>
    intro k
    exact ⟨Or.inl rfl, le_refl _, by simp⟩
  | cons a t' ih =>
    intro k
    simp only [List.foldl_cons]
    obtain ⟨hmem, hk, hall⟩ := ih (if cnt k < cnt a then a else k)
    refine ⟨?_, ?_, ?_⟩
    · rcases hmem with hr | hr
      · rw [hr]
        by_cases hd : cnt k < cnt a
        · rw [if_pos hd]
          exact Or.inr (List.mem_cons_self a t')
        · rw [if_neg hd]
          exact Or.inl rfl
      · exact Or.inr (List.mem_cons_of_mem a hr)
    · refine le_trans ?_ hk
      by_cases hd : cnt k < cnt a
      · rw [if_pos hd]
        exact le_of_lt hd
      · rw [if_neg hd]
    · intro g hg
      rcases List.mem_cons.mp hg with rfl | hg
      · refine le_trans ?_ hk
        by_cases hd : cnt k < cnt g
        · rw [if_pos hd]
        · rw [if_neg hd]
          omega
      · exact hall g hg

/-- The behaviour of lines 153–172 on one axis: 4 when no gap exceeds 1
(including the no-gap case), otherwise an observed gap `> 1` of maximal
frequency. -/
theorem mostCommonGt1_spec (l : List ℤ) :
    (l.filter (fun g => 1 < g) = [] → mostCommonGt1 l = 4) ∧
    (l.filter (fun g => 1 < g) ≠ [] →
      mostCommonGt1 l ∈ l ∧ 1 < mostCommonGt1 l ∧
        ∀ g ∈ l, 1 < g → l.count g ≤ l.count (mostCommonGt1 l)) := by
  constructor
  · intro hfe
    by_cases hemp : l.isEmpty
    · rw [mostCommonGt1, if_pos hemp]
    · have hisEmpty : l.isEmpty = false := by simpa using hemp
      have hks : (firstOccs l).filter (fun k => 1 < k) = [] := by
        rw [List.eq_nil_iff_forall_not_mem]
        intro x hxk
        obtain ⟨hxf, hxp⟩ := List.mem_filter.mp hxk
        have hxl : x ∈ l := mem_firstOccs.mp hxf
        have hxin : x ∈ l.filter (fun g => 1 < g) := List.mem_filter.mpr ⟨hxl, hxp⟩
        rw [hfe] at hxin
        exact List.not_mem_nil x hxin
      rw [mostCommonGt1, hisEmpty]
      simp only [Bool.false_eq_true, if_false]
      rw [firstOccs] at hks
      rw [firstOccs, hks]
  · intro hne
    have hlne : l ≠ [] := by
      rintro rfl
      exact hne rfl
    have hisEmpty : l.isEmpty = false := by
      cases l with
      | nil => exact absurd rfl hlne
      | cons a t => rfl
    obtain ⟨x0, hx0⟩ := List.exists_mem_of_ne_nil _ hne
    obtain ⟨hx0l, hx0p⟩ := List.mem_filter.mp hx0
    have hx0f : x0 ∈ (firstOccs l).filter (fun k => 1 < k) :=
      List.mem_filter.mpr ⟨mem_firstOccs.mpr hx0l, hx0p⟩
    cases hks : (firstOccs l).filter (fun k => 1 < k) with
    | nil =>
      rw [hks] at hx0f
      exact absurd hx0f (List.not_mem_nil x0)
    | cons k ks' =>
      have hr : mostCommonGt1 l =
          ks'.foldl (fun best g => if l.count best < l.count g then g else best) k := by
        rw [mostCommonGt1, hisEmpty]
        simp only [Bool.false_eq_true, if_false]
        rw [firstOccs] at hks
        rw [firstOccs, hks]
      obtain ⟨hmem, hk, hall⟩ := foldl_pickMax_spec (fun x => l.count x) ks' k
      have hsub : ∀ x ∈ k :: ks', x ∈ l ∧ 1 < x := by
        intro x hx
        rw [← hks] at hx
        obtain ⟨hxf, hxp⟩ := List.mem_filter.mp hx
        exact ⟨mem_firstOccs.mp hxf, by simpa using hxp⟩
      have hrks : mostCommonGt1 l ∈ k :: ks' := by
        rw [hr]
        rcases hmem with hm | hm
        · rw [hm]
          exact List.mem_cons_self _ _
        · exact List.mem_cons_of_mem _ hm
      refine ⟨(hsub _ hrks).1, (hsub _ hrks).2, ?_⟩
      intro g hg hgp
      have hgf : g ∈ k :: ks' := by
        rw [← hks]
        refine List.mem_filter.mpr
          ⟨mem_firstOccs.mpr hg, by simpa using hgp⟩
      rw [hr]
      rcases List.mem_cons.mp hgf with rfl | hgf'
      · exact hk
      · exact hall g hgf'

/-- Claim C6 (confirmed): per axis, the inferred spacing is 4 exactly when
the sampled gap list (first 100 axis keys, positive consecutive gaps)
holds no gap larger than 1; otherwise it is a sampled gap larger than 1 of
maximal frequency. -/
theorem C6_spacing (pts : List Pt) :
    ((rowIntervalsAll pts).filter (fun g => 1 < g) = [] → rowSpacing pts = 4) ∧
    ((rowIntervalsAll pts).filter (fun g => 1 < g) ≠ [] →
      rowSpacing pts ∈ rowIntervalsAll pts ∧ 1 < rowSpacing pts ∧
        ∀ g ∈ rowIntervalsAll pts, 1 < g →
          (rowIntervalsAll pts).count g ≤ (rowIntervalsAll pts).count (rowSpacing pts)) ∧
    ((colIntervalsAll pts).filter (fun g => 1 < g) = [] → colSpacing pts = 4) ∧
    ((colIntervalsAll pts).filter (fun g => 1 < g) ≠ [] →
      colSpacing pts ∈ colIntervalsAll pts ∧ 1 < colSpacing pts ∧
        ∀ g ∈ colIntervalsAll pts, 1 < g →
          (colIntervalsAll pts).count g ≤ (colIntervalsAll pts).count (colSpacing pts)) := by
  have h1 := mostCommonGt1_spec (rowIntervalsAll pts)
  have h2 := mostCommonGt1_spec (colIntervalsAll pts)
  exact ⟨h1.1, h1.2, h2.1, h2.2⟩

/-- Witness for C6 on `exMono`: the sampled row gaps are [4, 8], both > 1
with count 1, and 4 (first maximal) is chosen; the column axis has no gaps
and defaults to 4. -/
theorem C6_witness :
    rowSpacing exMono ∈ rowIntervalsAll exMono ∧
    1 < rowSpacing exMono ∧
    (rowIntervalsAll exMono).count 8 ≤ (rowIntervalsAll exMono).count (rowSpacing exMono) ∧
    colSpacing exMono = 4 := by
  have h := C6_spacing exMono
  have hne : (rowIntervalsAll exMono).filter (fun g => 1 < g) ≠ [] := by
    with_unfolding_all decide
  obtain ⟨hmem, hgt, hmax⟩ := h.2.1 hne
  refine ⟨hmem, hgt, hmax 8 (by with_unfolding_all decide) (by norm_num), ?_⟩
  exact h.2.2.1 (by with_unfolding_all decide)

/-- Counterexample to claim C3: `exMono` has inferred spacing 4 on both
axes, yet a run with target spacing 4 (equal to the inferred spacing)
still generates the candidate (5,8) inside the 4→12 gap, so the output is
not identical to the input. -/
theorem C3_counterexample :
    rowSpacing exMono = 4 ∧ colSpacing exMono = 4 ∧
    rowSpacing exMono ≤ 4 ∧ colSpacing exMono ≤ 4 ∧
    (needInterp exMono 4).map Prod.fst = [((5 : ℤ), (8 : ℤ))] ∧
    (newPoints primNone exMono 4).length ≠ (colRowMap exMono).length := by
  with_unfolding_all decide

/-- Claim C3 (amended): when the target spacing is at least every gap
between consecutive existing entries on both axes (rather than merely at
least the *inferred* spacing), no candidates are generated and the output
mapping equals the input store. -/
theorem C3_amended_law (primary : ℚ × ℚ → Option ℚ) (pts : List Pt) (T : ℤ)
    (hcol : ∀ e ∈ colToRows pts, ∀ pr ∈ consecPairs e.2, pr.2 ≤ pr.1 + T)
    (hrow : ∀ e ∈ rowToCols pts, ∀ pr ∈ consecPairs e.2, pr.2 ≤ pr.1 + T) :
    needInterp pts T = [] ∧ newPoints primary pts T = colRowMap pts := by
  have h1 : colPass (colRowMap pts) (colToRows pts) T = [] := colPass_eq_nil hcol
  have h2 : rowPass (colRowMap pts) (rowToCols pts) T = [] := rowPass_eq_nil hrow
  have hni : needInterp pts T = [] := by
    rw [needInterp, h1, h2]
    rfl
  refine ⟨hni, ?_⟩
  rw [newPoints, hni]
  rfl

/-- Witness for the amended C3: all gaps of `exEven` are 4 ≤ 4, so spacing
4 generates nothing and the output equals the input store. -/
theorem C3_witness :
    needInterp exEven 4 = [] ∧ newPoints primNone exEven 4 = colRowMap exEven :=
  C3_amended_law primNone exEven 4 (by with_unfolding_all decide)
    (by with_unfolding_all decide)

/-- The `(col, new_row) not in new_points` guard never fires for a row
strictly between two consecutive existing rows of the column: such a key
cannot be in the Point Store. -/
theorem colPass_guard_false {pts : List Pt} {c : ℤ} {R : List ℤ} {a₀ b₀ n : ℤ}
    (hR : (c, R) ∈ colToRows pts) (hpr : (a₀, b₀) ∈ consecPairs R)
    (h1 : a₀ < n) (h2 : n < b₀) :
    dictHasKey (colRowMap pts) (c, n) = false := by
  by_contra h
  have h' : dictHasKey (colRowMap pts) (c, n) = true := by simpa using h
  obtain ⟨p, hp, hpk⟩ := (colRowMap_hasKey pts (c, n)).mp h'
  have hpc : p.col = c := congrArg Prod.fst hpk
  have hprow : p.row = n := congrArg Prod.snd hpk
  have hnR : n ∈ R := (colToRows_rows_char hR n).mpr ⟨p, hp, hpc, hprow⟩
  exact consecPairs_not_between (colToRows_sorted hR) hpr n hnR ⟨h1, h2⟩

/-- Claim C5 (confirmed): for a column `c` with consecutive rows
`cur < nxt`, the column pass generates exactly the rows
`cur + T, cur + 2T, …` strictly below `nxt` (none is skipped by the
membership guard), each candidate's x is exactly `x(c,cur)`, its y is the
linear interpolation of `y(c,cur)` and `y(c,nxt)` at the new row, and that
y lies between the two endpoint ys inclusive. -/
theorem C5_column_pass (pts : List Pt) (T : ℤ) (hT : 0 < T) (c : ℤ)
    (rows : List ℤ) (cur nxt : ℤ) (hentry : (c, rows) ∈ colToRows pts)
    (hpr : (cur, nxt) ∈ consecPairs rows) :
    (colPassGap (colRowMap pts) c cur nxt T).map (fun e => e.1.2) =
      pyRange (cur + T) nxt T ∧
    (∀ n, n ∈ pyRange (cur + T) nxt T ↔
      ∃ k : ℕ, 1 ≤ k ∧ n = cur + T * k ∧ n < nxt) ∧
    (∀ e ∈ colPassGap (colRowMap pts) c cur nxt T,
      e.2.1 = (dictGetD (colRowMap pts) (c, cur)).1 ∧
      e.2.2 = (dictGetD (colRowMap pts) (c, cur)).2.1 +
        ((dictGetD (colRowMap pts) (c, nxt)).2.1 -
          (dictGetD (colRowMap pts) (c, cur)).2.1) *
          (((e.1.2 : ℚ) - (cur : ℚ)) / ((nxt : ℚ) - (cur : ℚ))) ∧
      min ((dictGetD (colRowMap pts) (c, cur)).2.1)
          ((dictGetD (colRowMap pts) (c, nxt)).2.1) ≤ e.2.2 ∧
      e.2.2 ≤ max ((dictGetD (colRowMap pts) (c, cur)).2.1)
          ((dictGetD (colRowMap pts) (c, nxt)).2.1)) := by
  have hguard : ∀ n ∈ pyRange (cur + T) nxt T,
      dictHasKey (colRowMap pts) (c, n) = false := by
    intro n hn
    obtain ⟨hlo, hhi⟩ := mem_pyRange_bounds hT hn
    exact colPass_guard_false hentry hpr (by omega) hhi
  have hmap : ∀ (g : ℤ → ℚ × ℚ) (L : List ℤ),
      (∀ n ∈ L, dictHasKey (colRowMap pts) (c, n) = false) →
      (L.filterMap (fun nr =>
        if dictHasKey (colRowMap pts) (c, nr) then none
        else some ((c, nr), g nr))).map (fun e => e.1.2) = L := by
    intro g L
    induction L with
    | nil => intro _; rfl
    | cons n t ih =>
      intro hg
      have hgn := hg n (List.mem_cons_self n t)
      simp only [List.filterMap_cons]
      rw [if_neg (by simp [hgn])]
      simp only [List.map_cons]
      congr 1
      exact ih (fun x hx => hg x (List.mem_cons_of_mem n hx))
  refine ⟨?_, ?_, ?_⟩
  · rw [colPassGap]
    exact hmap _ (pyRange (cur + T) nxt T) hguard
  · intro n
    rw [mem_pyRange hT]
    constructor
    · rintro ⟨k, rfl, hlt⟩
      exact ⟨k + 1, by omega, by push_cast; ring, hlt⟩
    · rintro ⟨k, hk1, rfl, hlt⟩
      cases k with
      | zero => omega
      | succ m => exact ⟨m, by push_cast; ring, hlt⟩
  · intro e he
    obtain ⟨n, hn, hk, rfl⟩ := mem_colPassGap.mp he
    obtain ⟨hlo, hhi⟩ := mem_pyRange_bounds hT hn
    have hcn : cur < n := by omega
    have hq1 : (0 : ℚ) < (n : ℚ) - (cur : ℚ) := by
      rw [sub_pos]
      exact_mod_cast hcn
    have hq2 : (n : ℚ) - (cur : ℚ) < (nxt : ℚ) - (cur : ℚ) := by
      have hc : (n : ℚ) < (nxt : ℚ) := by exact_mod_cast hhi
      linarith
    have hden : (0 : ℚ) < (nxt : ℚ) - (cur : ℚ) := by linarith
    set y1 := (dictGetD (colRowMap pts) (c, cur)).2.1 with hy1
    set y2 := (dictGetD (colRowMap pts) (c, nxt)).2.1 with hy2
    set f := ((n : ℚ) - (cur : ℚ)) / ((nxt : ℚ) - (cur : ℚ)) with hf
    have hf0 : 0 ≤ f := le_of_lt (div_pos hq1 hden)
    have hf1 : f ≤ 1 := by
      rw [hf, div_le_one hden]
      linarith
    refine ⟨rfl, rfl, ?_, ?_⟩
    · dsimp only
      rcases le_total y1 y2 with hle | hle
      · rw [min_eq_left hle]
        nlinarith [mul_nonneg (sub_nonneg.mpr hle) hf0]
      · rw [min_eq_right hle]
        nlinarith [mul_nonneg (sub_nonneg.mpr hle) (sub_nonneg.mpr hf1)]
    · dsimp only
      rcases le_total y1 y2 with hle | hle
      · rw [max_eq_right hle]
        nlinarith [mul_nonneg (sub_nonneg.mpr hle) (sub_nonneg.mpr hf1)]
      · rw [max_eq_left hle]
        nlinarith [mul_nonneg (sub_nonneg.mpr hle) hf0]

/-- Witness for C5 on `exMono`, column 5, consecutive rows 4 < 12. -/
theorem C5_witness :
    (colPassGap (colRowMap exMono) 5 4 12 4).map (fun e => e.1.2) =
      pyRange (4 + 4) 12 4 ∧
    (((5 : ℤ), (8 : ℤ)), ((0 : ℚ), (8 : ℚ))).2.1 =
      (dictGetD (colRowMap exMono) (5, 4)).1 ∧
    min ((dictGetD (colRowMap exMono) (5, 4)).2.1)
        ((dictGetD (colRowMap exMono) (5, 12)).2.1) ≤
      (((5 : ℤ), (8 : ℤ)), ((0 : ℚ), (8 : ℚ))).2.2 ∧
    (((5 : ℤ), (8 : ℤ)), ((0 : ℚ), (8 : ℚ))).2.2 ≤
      max ((dictGetD (colRowMap exMono) (5, 4)).2.1)
        ((dictGetD (colRowMap exMono) (5, 12)).2.1) := by
  have h := C5_column_pass exMono 4 (by norm_num) 5 [0, 4, 12] 4 12
    (by with_unfolding_all decide) (by with_unfolding_all decide)
  have h3 := h.2.2 (((5 : ℤ), (8 : ℤ)), ((0 : ℚ), (8 : ℚ)))
    (by with_unfolding_all decide)
  exact ⟨h.1, h3.1, h3.2.2.1, h3.2.2.2⟩

/-- The reading loop after the header has ended: blank and comment lines
still go to the header list, all other lines are split and parsed. -/
theorem readFileAux_false (pF : List Line → Option Pt) (ls : List Line) :
    readFileAux pF false ls =
      (ls.filter blankOrComment, ls.filterMap (dataOfLine pF)) := by
  induction ls with
  | nil => rfl
  | cons l t ih =>
    by_cases hb : blankOrComment l = true
    · have hb' : ((stripWS l).isEmpty || startsWithL (stripWS l) ['#']) = true := hb
      simp only [readFileAux, Bool.false_or, hb', if_true, ite_self, ih,
        List.filter_cons, List.filterMap_cons, hb, dataOfLine]
    · have hb0 : blankOrComment l = false := by
        simpa using hb
      have hb' : ((stripWS l).isEmpty || startsWithL (stripWS l) ['#']) = false := hb0
      simp only [readFileAux, Bool.false_or, hb', Bool.false_eq_true, if_false, ih,
        List.filter_cons, List.filterMap_cons, hb, dataOfLine]
      by_cases hlen : (splitTokens (stripWS l)).length ≥ 5
      · rw [if_pos hlen, if_pos hlen]
        cases hpf : pF (splitTokens (stripWS l)) with
        | some p => simp
        | none => simp
      · rw [if_neg hlen, if_neg hlen]

/-- The reading loop from the start: the header is everything up to and
including the first `# End:` marker line, plus every later blank or
comment line; data parsing applies only to the remaining post-marker
lines. -/
theorem readFileAux_true (pF : List Line → Option Pt) (ls : List Line) :
    readFileAux pF true ls =
      (specHeader ls ++ (afterMarker ls).filter blankOrComment,
        (afterMarker ls).filterMap (dataOfLine pF)) := by
  induction ls with
  | nil => rfl
  | cons l t ih =>
    by_cases hm : startsWithL (stripWS l) endMarker = true
    · simp only [readFileAux, Bool.true_or, if_true, hm, specHeader, afterMarker,
        readFileAux_false, List.singleton_append]
    · have hm' : startsWithL (stripWS l) endMarker = false := by simpa using hm
      simp only [readFileAux, Bool.true_or, if_true, hm', Bool.false_eq_true, if_false,
        ih, specHeader, afterMarker, List.cons_append]

/-- Counterexample to claim C8: with a comment line after the `# End:`
marker, the produced header is not "all lines up to and including the
first marker line" — the post-marker comment line is in it too. -/
theorem C8_counterexample :
    (readHorizonFile pFNone exLines).1 ≠ specHeader exLines := by
  with_unfolding_all decide

/-- Claim C8 (amended): the header consists of all lines up to and
including the first line whose stripped content begins with `# End:`,
*plus* every later line that is blank or starts with `'#'`; data-point
parsing applies only to the remaining lines after the marker, so no line
at or before the marker is ever parsed as a data point. -/
theorem C8_amended_law (pF : List Line → Option Pt) (lines : List Line) :
    (readHorizonFile pF lines).1 =
      specHeader lines ++ (afterMarker lines).filter blankOrComment ∧
    (readHorizonFile pF lines).2 = (afterMarker lines).filterMap (dataOfLine pF) := by
  rw [readHorizonFile, readFileAux_true]
  exact ⟨rfl, rfl⟩

/-! ## Lemmas for the idempotence analysis (claim C4) -/

/-- When every input point lies in one column, every row's column list is
a singleton and the row pass emits nothing. -/
theorem rowPass_of_const_col (m : List (HKey × HVal)) {pts : List Pt} {c : ℤ}
    (T : ℤ) (hc : ∀ p ∈ pts, p.col = c) : rowPass m (rowToCols pts) T = [] := by
  rw [List.eq_nil_iff_forall_not_mem]
  intro e he
  obtain ⟨r, cols, hentry, pr, hpr, _⟩ := mem_rowPass.mp he
  have hcl : ∀ x ∈ cols, x = c := by
    intro x hx
    obtain ⟨p, hp, _, hpc⟩ := (rowToCols_cols_char hentry x).mp hx
    exact hpc ▸ hc p hp
  have hpr' : (pr.1, pr.2) ∈ consecPairs cols := hpr
  have hlt : pr.1 < pr.2 := consecPairs_lt (rowToCols_sorted hentry) hpr'
  obtain ⟨h1, h2⟩ := consecPairs_mem_both hpr'
  rw [hcl pr.1 h1, hcl pr.2 h2] at hlt
  exact lt_irrefl c hlt

/-- When every input point lies in column `c`, every key of the final
mapping lies in column `c` too. -/
theorem newPoints_key_col (primary : ℚ × ℚ → Option ℚ) {pts : List Pt} {c : ℤ}
    (T : ℤ) (hc : ∀ p ∈ pts, p.col = c) :
    ∀ e ∈ newPoints primary pts T, e.1.1 = c := by
  intro e he
  have hk : dictHasKey (newPoints primary pts T) e.1 = true :=
    dictHasKey_iff_mem.mpr (List.mem_map.mpr ⟨e, he, rfl⟩)
  rw [newPoints] at hk
  rcases (foldl_insert_hasKey _ _ _ _).mp hk with hs | hcand
  · obtain ⟨p, hp, hpk⟩ := (colRowMap_hasKey pts e.1).mp hs
    rw [← congrArg Prod.fst hpk]
    exact hc p hp
  · obtain ⟨e₂, he₂, hfst⟩ := List.mem_map.mp hcand
    rw [needInterp] at he₂
    rcases List.mem_append.mp he₂ with hcp | hrp
    · obtain ⟨c₃, R₃, hR₃, pr₃, _, hg₃⟩ := mem_colPass.mp hcp
      obtain ⟨n₃, _, _, heq⟩ := mem_colPassGap.mp hg₃
      have hkey : ((c₃, n₃) : HKey) = e.1 :=
        (congrArg Prod.fst heq).symm.trans hfst
      obtain ⟨p, hp, hpc⟩ := colToRows_entry_from_point hR₃
      rw [← congrArg Prod.fst hkey]
      exact hpc ▸ hc p hp
    · rw [rowPass_of_const_col _ T hc] at hrp
      exact absurd hrp (List.not_mem_nil e₂)

/-- When every input point lies in column `c`, so does every output point. -/
theorem outputPoints_col_const (primary : ℚ × ℚ → Option ℚ) {pts : List Pt}
    {c : ℤ} (T : ℤ) (hc : ∀ p ∈ pts, p.col = c) :
    ∀ q ∈ outputPoints primary pts T, q.col = c := by
  intro q hq
  obtain ⟨e, he, rfl⟩ := List.mem_map.mp hq
  have he' : e ∈ newPoints primary pts T := by
    rw [outputEntries] at he
    exact mem_sortEntries.mp he
  exact newPoints_key_col primary T hc e he'

/-- A (col,row) key occurs among the written output points exactly when it
is a key of the final mapping. -/
theorem outputPoints_key_iff (primary : ℚ × ℚ → Option ℚ) (pts : List Pt)
    (T : ℤ) (k : HKey) :
    (∃ q ∈ outputPoints primary pts T, q.col = k.1 ∧ q.row = k.2) ↔
      dictHasKey (newPoints primary pts T) k = true := by
  constructor
  · rintro ⟨q, hq, h1, h2⟩
    obtain ⟨e, he, rfl⟩ := List.mem_map.mp hq
    have he' : e ∈ newPoints primary pts T := by
      rw [outputEntries] at he
      exact mem_sortEntries.mp he
    apply dictHasKey_iff_mem.mpr
    apply List.mem_map.mpr
    refine ⟨e, he', ?_⟩
    have hk : e.1 = (k.1, k.2) := Prod.ext h1 h2
    rw [hk]
  · intro hk
    obtain ⟨e, he, hfst⟩ := List.mem_map.mp (dictHasKey_iff_mem.mp hk)
    refine ⟨⟨e.2.1, e.2.2.1, e.2.2.2, e.1.1, e.1.2⟩, ?_, ?_, ?_⟩
    · apply List.mem_map.mpr
      refine ⟨e, ?_, rfl⟩
      rw [outputEntries]
      exact mem_sortEntries.mpr he
    · exact congrArg Prod.fst hfst
    · exact congrArg Prod.snd hfst

/-- Rows of the Point Store become keys of the final mapping. -/
theorem store_key_in_newPoints (primary : ℚ × ℚ → Option ℚ) (pts : List Pt)
    (T : ℤ) {c₀ y : ℤ} {R : List ℤ} (hR : (c₀, R) ∈ colToRows pts) (hy : y ∈ R) :
    dictHasKey (newPoints primary pts T) (c₀, y) = true := by
  obtain ⟨p, hp, hpc, hpr⟩ := (colToRows_rows_char hR y).mp hy
  rw [newPoints]
  apply (foldl_insert_hasKey _ _ _ _).mpr
  left
  exact (colRowMap_hasKey pts (c₀, y)).mpr ⟨p, hp, by rw [hpc, hpr]⟩

/-- A grid row generated by the column pass becomes a key of the final
mapping. -/
theorem cand_key_in_newPoints (primary : ℚ × ℚ → Option ℚ) (pts : List Pt)
    (T : ℤ) {c₀ a₀ b₀ n : ℤ} {R : List ℤ} (hR : (c₀, R) ∈ colToRows pts)
    (hpr : (a₀, b₀) ∈ consecPairs R) (hn : n ∈ pyRange (a₀ + T) b₀ T)
    (hg : dictHasKey (colRowMap pts) (c₀, n) = false) :
    dictHasKey (newPoints primary pts T) (c₀, n) = true := by
  rw [newPoints]
  apply (foldl_insert_hasKey _ _ _ _).mpr
  right
  apply List.mem_map.mpr
  refine ⟨((c₀, n), ((dictGetD (colRowMap pts) (c₀, a₀)).1,
    (dictGetD (colRowMap pts) (c₀, a₀)).2.1 +
      ((dictGetD (colRowMap pts) (c₀, b₀)).2.1 -
        (dictGetD (colRowMap pts) (c₀, a₀)).2.1) *
        (((n : ℚ) - (a₀ : ℚ)) / ((b₀ : ℚ) - (a₀ : ℚ))))), ?_, rfl⟩
  rw [needInterp]
  apply List.mem_append_left
  apply mem_colPass.mpr
  exact ⟨c₀, R, hR, (a₀, b₀), hpr, mem_colPassGap.mpr ⟨n, hn, hg, rfl⟩⟩

/-- The density step: in a single-column run, between any final-mapping
key `(c, a)` and a larger one there is a final-mapping key at most `T`
above `a` — the rows of the first run's output never leave a gap wider
than the target spacing below another row. -/
theorem key_next_step (primary : ℚ × ℚ → Option ℚ) {pts : List Pt} {T c : ℤ}
    (hT : 0 < T) (hc : ∀ p ∈ pts, p.col = c) {a b : ℤ}
    (ha : dictHasKey (newPoints primary pts T) (c, a) = true)
    (hb : dictHasKey (newPoints primary pts T) (c, b) = true) (hab : a < b) :
    ∃ x, dictHasKey (newPoints primary pts T) (c, x) = true ∧ a < x ∧ x ≤ a + T := by
  have hdecomp : ∀ y : ℤ, dictHasKey (newPoints primary pts T) (c, y) = true →
      (∃ p ∈ pts, p.row = y) ∨
      (∃ R a₀ b₀, (c, R) ∈ colToRows pts ∧ (a₀, b₀) ∈ consecPairs R ∧
        y ∈ pyRange (a₀ + T) b₀ T) := by
    intro y hy
    rw [newPoints] at hy
    rcases (foldl_insert_hasKey _ _ _ _).mp hy with hs | hcd
    · obtain ⟨p, hp, hpk⟩ := (colRowMap_hasKey pts (c, y)).mp hs
      exact Or.inl ⟨p, hp, congrArg Prod.snd hpk⟩
    · obtain ⟨e₂, he₂, hfst⟩ := List.mem_map.mp hcd
      rw [needInterp] at he₂
      rcases List.mem_append.mp he₂ with hcp | hrp
      · obtain ⟨c₃, R₃, hR₃, pr₃, hpr₃, hg₃⟩ := mem_colPass.mp hcp
        obtain ⟨n₃, hn₃, _, heq⟩ := mem_colPassGap.mp hg₃
        have hkey : ((c₃, n₃) : HKey) = (c, y) :=
          (congrArg Prod.fst heq).symm.trans hfst
        have hc3 : c₃ = c := congrArg Prod.fst hkey
        have hn3 : n₃ = y := congrArg Prod.snd hkey
        refine Or.inr ⟨R₃, pr₃.1, pr₃.2, hc3 ▸ hR₃, hpr₃, hn3 ▸ hn₃⟩
      · rw [rowPass_of_const_col _ T hc] at hrp
        exact absurd hrp (List.not_mem_nil e₂)
  rcases hdecomp a ha with ⟨p, hp, hprow⟩ | ⟨R, a₀, b₀, hR, hpr, hmemA⟩
  · obtain ⟨R, hR0, haR0⟩ := colToRows_exists hp
    have hR' : ((c : ℤ), R) ∈ colToRows pts := by
      rw [← hc p hp]
      exact hR0
    have haR : a ∈ R := by
      rw [← hprow]
      exact haR0
    by_cases hbig : ∃ r ∈ R, a < r
    · obtain ⟨r, hrR, har⟩ := hbig
      obtain ⟨b₀, hb₀⟩ := consecPairs_succ_exists (colToRows_sorted hR') haR hrR har
      have hab₀ : a < b₀ := consecPairs_lt (colToRows_sorted hR') hb₀
      by_cases hle : b₀ ≤ a + T
      · exact ⟨b₀, store_key_in_newPoints primary pts T hR'
          (consecPairs_mem_both hb₀).2, hab₀, hle⟩
      · push_neg at hle
        have hmem : a + T ∈ pyRange (a + T) b₀ T :=
          (mem_pyRange hT).mpr ⟨0, by push_cast; ring, hle⟩
        have hg : dictHasKey (colRowMap pts) (c, a + T) = false :=
          colPass_guard_false hR' hb₀ (by omega) hle
        exact ⟨a + T, cand_key_in_newPoints primary pts T hR' hb₀ hmem hg,
          by omega, le_refl _⟩
    · push_neg at hbig
      exfalso
      rcases hdecomp b hb with ⟨q, hq, hqrow⟩ | ⟨R₂, a₂, b₂, hR₂, hpr₂, hmem₂⟩
      · obtain ⟨R₃, hR₃0, hbR₃0⟩ := colToRows_exists hq
        have hR₃' : ((c : ℤ), R₃) ∈ colToRows pts := by
          rw [← hc q hq]
          exact hR₃0
        have hbR : b ∈ R := by
          rw [← colToRows_unique hR₃' hR', ← hqrow]
          exact hbR₃0
        have := hbig b hbR
        omega
      · have hReq : R₂ = R := colToRows_unique hR₂ hR'
        obtain ⟨hlo₂, hhi₂⟩ := mem_pyRange_bounds hT hmem₂
        have hb₂R : b₂ ∈ R := by
          rw [← hReq]
          exact (consecPairs_mem_both hpr₂).2
        have := hbig b₂ hb₂R
        omega
  · obtain ⟨hlo, hhi⟩ := mem_pyRange_bounds hT hmemA
    by_cases hle : b₀ ≤ a + T
    · exact ⟨b₀, store_key_in_newPoints primary pts T hR
        (consecPairs_mem_both hpr).2, by omega, hle⟩
    · push_neg at hle
      obtain ⟨k, hkeq, _⟩ := (mem_pyRange hT).mp hmemA
      have hmem : a + T ∈ pyRange (a₀ + T) b₀ T :=
        (mem_pyRange hT).mpr ⟨k + 1, by rw [hkeq]; push_cast; ring, hle⟩
      have hg : dictHasKey (colRowMap pts) (c, a + T) = false :=
        colPass_guard_false hR hpr (by omega) hle
      exact ⟨a + T, cand_key_in_newPoints primary pts T hR hpr hmem hg,
        by omega, le_refl _⟩

/-- Counterexample to claim C4: running the tool on the four corners of a
4×6 box with spacing 2 and then running it again on the output generates
new candidates — the first run's row pass created column 2 holding only
rows 0 and 6, which the second run's column pass then fills. -/
theorem C4_counterexample :
    needInterp (outputPoints primNone exBox 2) 2 ≠ [] := by
  with_unfolding_all decide

/-- Claim C4 (amended): the densified output is not in general a fixed
point (see the counterexample), but it is one whenever all input points
lie in a single column: a second run with the same positive spacing then
generates no candidates. -/
theorem C4_amended_law (primary : ℚ × ℚ → Option ℚ) (pts : List Pt) (T c : ℤ)
    (hT : 0 < T) (hc : ∀ p ∈ pts, p.col = c) :
    needInterp (outputPoints primary pts T) T = [] := by
  have hocol : ∀ q ∈ outputPoints primary pts T, q.col = c :=
    outputPoints_col_const primary T hc
  rw [needInterp]
  have h2 : rowPass (colRowMap (outputPoints primary pts T))
      (rowToCols (outputPoints primary pts T)) T = [] :=
    rowPass_of_const_col _ T hocol
  have h1 : colPass (colRowMap (outputPoints primary pts T))
      (colToRows (outputPoints primary pts T)) T = [] := by
    rw [List.eq_nil_iff_forall_not_mem]
    intro e he
    obtain ⟨c₂, rows', hentry, pr, hpr, hg⟩ := mem_colPass.mp he
    obtain ⟨n, hn, _, _⟩ := mem_colPassGap.mp hg
    obtain ⟨q, hq, hqc⟩ := colToRows_entry_from_point hentry
    have hc₂ : c₂ = c := by
      rw [← hqc]
      exact hocol q hq
    subst hc₂
    have hbridge : ∀ x, x ∈ rows' ↔
        dictHasKey (newPoints primary pts T) (c₂, x) = true := by
      intro x
      rw [colToRows_rows_char hentry x,
        ← outputPoints_key_iff primary pts T (c₂, x)]
    have hsorted := colToRows_sorted hentry
    have hpr' : (pr.1, pr.2) ∈ consecPairs rows' := hpr
    have haR : pr.1 ∈ rows' := (consecPairs_mem_both hpr').1
    have hbR : pr.2 ∈ rows' := (consecPairs_mem_both hpr').2
    have hab : pr.1 < pr.2 := consecPairs_lt hsorted hpr'
    obtain ⟨x, hxkey, hx1, hx2⟩ := key_next_step primary hT hc
      ((hbridge pr.1).mp haR) ((hbridge pr.2).mp hbR) hab
    have hxR : x ∈ rows' := (hbridge x).mpr hxkey
    have hmin := consecPairs_min hsorted hpr' x hxR hx1
    obtain ⟨hlo, hhi⟩ := mem_pyRange_bounds hT hn
    omega
  rw [h1, h2]
  rfl

/-- Witness for the amended C4: `exMono` lies in the single column 5, and
a second run with spacing 2 on the first run's output generates nothing. -/
theorem C4_witness :
    (0 : ℤ) < 2 ∧ (∀ p ∈ exMono, p.col = 5) ∧
      needInterp (outputPoints primNone exMono 2) 2 = [] :=
  ⟨by norm_num, by with_unfolding_all decide,
    C4_amended_law primNone exMono 2 5 (by norm_num) (by with_unfolding_all decide)⟩
